import Mathlib

/-!
# A verification development for the markdown blog server (`main.go`)

The file embeds the pure part of the program in Lean: the document parser
(`parseMarkdownFile`, `parseMetadata`, `extractHeaders`), the post loader and
the navigation hierarchy (`loadMarkdownPosts`, `loadSidebarData`), and the
anchor generator (`sanitizeHeaderForID`, `createSidebarLinks`).  The HTTP
routes of `main` are not embedded.

Modelling conventions.

* A Go string holding UTF-8 text is the list of its runes (`Str`).  Go compares
  strings bytewise; on UTF-8 text that is the lexicographic order of the
  runes, which is the order used on `Str`.
* An `int` is an integer; `strconv.Atoi` is the one place where the 64-bit
  range of `int` decides an outcome, and it tests that range.
* The three regular expressions of the program are fixed, so each one is
  embedded as the matcher that Go's leftmost-first (greedy, backtracking
  order) semantics gives for that pattern; the `FindAll` loop that restarts
  the search at the end of the previous match is embedded as such.
* The file system is an argument: the results of `os.ReadDir` and
  `os.ReadFile`.
* What the program takes from its runtime and from third-party packages and
  that has no single mathematical value is a field of `Env`: the case table of
  package `unicode` outside ASCII, the markdown renderer, the algorithm behind
  `sort.Slice` and the iteration order of a Go map.  The documented contracts
  of the last two are the proposition `Env.Lawful`; `goEnv` is a runtime that
  meets them.
-/

namespace Blog

/-- A Go string holding UTF-8 text, as the list of its runes. -/
abbrev Str := List Char

/-! ## Package `strings`, `unicode`, `strconv` -/

/-- The predicate `unicode.IsSpace`: the Unicode White_Space runes. -/
def isSpace (c : Char) : Bool :=
  let n := c.toNat
  (9 ≤ n && n ≤ 13) || n == 0x20 || n == 0x85 || n == 0xA0 || n == 0x1680 ||
    (0x2000 ≤ n && n ≤ 0x200A) || n == 0x2028 || n == 0x2029 || n == 0x202F ||
    n == 0x205F || n == 0x3000

/-- The function `strings.TrimSpace`: drop leading and trailing white space. -/
def trimSpace (s : Str) : Str :=
  ((s.dropWhile isSpace).reverse.dropWhile isSpace).reverse

/-- The function `strings.Index`: position of the first occurrence of `sep`. -/
def index (sep : Str) : Str → Option Nat
  | [] => if sep.isEmpty then some 0 else none
  | c :: cs =>
    if sep.isPrefixOf (c :: cs) then some 0 else (index sep cs).map (· + 1)

/-- The call `strings.SplitN(s, sep, 2)` for a non-empty separator: the whole
string when `sep` does not occur, otherwise the text before the first
occurrence and the text after it. -/
def splitN2 (s sep : Str) : List Str :=
  match index sep s with
  | none => [s]
  | some i => [s.take i, s.drop (i + sep.length)]

/-- Worker of `replaceAll`; the counter is the number of runes of the
occurrence of `old` being replaced that are still to be skipped. -/
def replaceAllAux (old new : Str) : Nat → Str → Str
  | _, [] => []
  | k + 1, _ :: cs => replaceAllAux old new k cs
  | 0, c :: cs =>
    if old.isPrefixOf (c :: cs) then new ++ replaceAllAux old new (old.length - 1) cs
    else c :: replaceAllAux old new 0 cs

/-- The function `strings.ReplaceAll` for a non-empty `old`: every
non-overlapping occurrence of `old`, found left to right, becomes `new`. -/
def replaceAll (s old new : Str) : Str := replaceAllAux old new 0 s

/-- The function `unicode.ToLower`: ASCII is handled inline, any other rune
goes through the case table of package `unicode`, here `table`. -/
def toLowerRune (table : Char → Char) (r : Char) : Char :=
  if r.toNat ≤ 127 then
    if 'A'.toNat ≤ r.toNat ∧ r.toNat ≤ 'Z'.toNat then Char.ofNat (r.toNat + 32) else r
  else table r

/-- The function `strings.ToLower` on UTF-8 text. -/
def toLower (table : Char → Char) (s : Str) : Str := s.map (toLowerRune table)

/-- Go's `<` on strings. -/
def strLess : Str → Str → Bool
  | [], [] => false
  | [], _ :: _ => true
  | _ :: _, [] => false
  | a :: as, b :: bs =>
    if a.toNat < b.toNat then true
    else if b.toNat < a.toNat then false
    else strLess as bs

/-- The constant `strconv.IntSize` of a 64-bit target. -/
def intSize : Nat := 64

/-- The digit loop of `strconv.ParseUint` in base 10, without the overflow
test (the range is tested by `atoi` on the exact value). -/
def parseDigits : Nat → Str → Option Nat
  | n, [] => some n
  | n, ch :: rest =>
    if '0'.toNat ≤ ch.toNat ∧ ch.toNat ≤ '9'.toNat then
      parseDigits (n * 10 + (ch.toNat - '0'.toNat)) rest
    else none

/-- The function `strconv.Atoi`; `none` stands for a non-nil error (a syntax
error, or a range error when the value does not fit an `int`). -/
def atoi (s : Str) : Option Int :=
  let neg : Bool := match s with
    | '-' :: _ => true
    | _ => false
  let body : Str := match s with
    | '-' :: r => r
    | '+' :: r => r
    | _ => s
  if body.isEmpty then none
  else match parseDigits 0 body with
    | none => none
    | some un =>
      if neg then (if un > 2 ^ (intSize - 1) then none else some (-(un : Int)))
      else (if un ≥ 2 ^ (intSize - 1) then none else some (un : Int))

/-! ## Character classes of the regular expressions -/

/-- The class `\w` of Go regular expressions: `[0-9A-Za-z_]`. -/
def isWord (c : Char) : Bool :=
  let n := c.toNat
  (48 ≤ n && n ≤ 57) || (65 ≤ n && n ≤ 90) || (97 ≤ n && n ≤ 122) || n == 95

/-- The class `\s` of Go regular expressions: `[\t\n\f\r ]`. -/
def isReSpace (c : Char) : Bool :=
  let n := c.toNat
  n == 9 || n == 10 || n == 12 || n == 13 || n == 32

/-- What `.` matches without the `s` flag: any rune but the newline. -/
def isDot (c : Char) : Bool := c != '\n'

/-- The class `[a-z0-9\-]`, whose complement `sanitizeHeaderForID` deletes. -/
def isAnchorChar (c : Char) : Bool :=
  let n := c.toNat
  (97 ≤ n && n ≤ 122) || (48 ≤ n && n ≤ 57) || n == 45

/-! ## Data model -/

/-- The struct `BlogPost`. -/
structure BlogPost where
  Title : Str
  Slug : Str
  Parent : Str
  Content : Str
  Description : Str
  Order : Int
  Headers : List Str
  MetaDescription : Str
  MetaPropertyTitle : Str
  MetaPropertyDescription : Str
  MetaOgURL : Str
  deriving DecidableEq, Repr

/-- The struct `Category`. -/
structure Category where
  Name : Str
  Pages : List BlogPost
  Order : Int
  deriving DecidableEq, Repr

/-- The struct `SidebarData`. -/
structure SidebarData where
  Categories : List Category
  deriving DecidableEq, Repr

/-- What the program takes from the Go runtime and from third-party packages. -/
structure Env where
  /-- Case table of package `unicode` for runes outside ASCII. -/
  unicodeLower : Char → Char
  /-- The markdown renderer behind `mdToHTML`. -/
  mdToHTML : Str → Str
  /-- The algorithm of `sort.Slice`, given the `less` function on elements. -/
  sortSlice : (α : Type) → (α → α → Bool) → List α → List α
  /-- The order in which `range` visits the entries of the category map. -/
  mapRange : List Category → List Category

/-! ## The document parser -/

/-- The loop of `FindAll` for a pattern that starts with `(?m)^` and matches no
empty text: `matchAt` is one attempt of the pattern at the start of a line and
gives the captures with the length of the match; the search goes on where the
match ends.  The counter is the number of runes of the last match still to be
passed over, the flag tells whether the position is the start of the text or
follows a newline. -/
def findAllAux {β : Type} (matchAt : Str → Option (β × Nat)) : Nat → Bool → Str → List β
  | _, _, [] => []
  | k + 1, _, c :: cs => findAllAux matchAt k (c == '\n') cs
  | 0, bol, c :: cs =>
    if bol then
      match matchAt (c :: cs) with
      | some (found, n) => found :: findAllAux matchAt (n - 1) (c == '\n') cs
      | none => findAllAux matchAt 0 (c == '\n') cs
    else findAllAux matchAt 0 (c == '\n') cs

/-- One attempt of the pattern `^(\w+):\s*(.+)` at the start of a line: the two
captures and the length of the match.  `\w+` takes the whole run of word
runes (a shorter run is not followed by the colon), `\s*` takes the whole run
of white space, newlines included, and `.+` the rest of that line; when the
text ends inside the white space, `\s*` gives runes back until `.+` can start
on one that is not a newline. -/
def matchMetaAt (s : Str) : Option ((Str × Str) × Nat) :=
  let key := s.takeWhile isWord
  match s.dropWhile isWord with
  | ':' :: r =>
    if key.isEmpty then none
    else
      let ws := r.takeWhile isReSpace
      match r.dropWhile isReSpace with
      | c :: t =>
        let val := (c :: t).takeWhile isDot
        some ((key, val), key.length + 1 + ws.length + val.length)
      | [] =>
        match ws.reverse.dropWhile (fun c => !isDot c) with
        | w :: before => some ((key, [w]), key.length + 1 + (before.length + 1))
        | [] => none
  | _ => none

/-- The call `re.FindAllStringSubmatch(metadata, -1)` of `parseMetadata`, each
match given by its two captures. -/
def findAllMeta (metadata : Str) : List (Str × Str) := findAllAux matchMetaAt 0 true metadata

/-- The map `metaDataMap` after the loop over the matches, read at `key`: the
value stored by the last match with that key, the empty string without one. -/
def metaDataMap (found : List (Str × Str)) (key : Str) : Str :=
  found.foldl (fun cur m => if m.1 = key then m.2 else cur) []

/-- The nine results of `parseMetadata`. -/
structure Metadata where
  title : Str
  slug : Str
  parent : Str
  description : Str
  order : Int
  metaDescription : Str
  metaPropertyTitle : Str
  metaPropertyDescription : Str
  metaOgURL : Str
  deriving DecidableEq, Repr

/-- The function `parseMetadata`. -/
def parseMetadata (metadata : Str) : Metadata :=
  let m := metaDataMap (findAllMeta metadata)
  let orderStr := trimSpace (m "Order".toList)
  let ord : Int := match atoi orderStr with
    | some n => n
    | none => 9999
  { title := m "Title".toList
    slug := m "Slug".toList
    parent := m "Parent".toList
    description := m "Description".toList
    order := ord
    metaDescription := m "MetaDescription".toList
    metaPropertyTitle := m "MetaPropertyTitle".toList
    metaPropertyDescription := m "MetaPropertyDescription".toList
    metaOgURL := m "MetaOgURL".toList }

/-- One attempt of the pattern `^##\s+(.*)` at the start of a line: the capture
and the length of the match.  `\s+` takes the whole run of white space,
newlines included, and `.*` the rest of the line reached. -/
def matchHeaderAt (s : Str) : Option (Str × Nat) :=
  match s with
  | '#' :: '#' :: r =>
    let ws := r.takeWhile isReSpace
    if ws.isEmpty then none
    else
      let val := (r.dropWhile isReSpace).takeWhile isDot
      some (val, 2 + ws.length + val.length)
  | _ => none

/-- The function `extractHeaders`: the capture of every match of
`(?m)^##\s+(.*)`. -/
def extractHeaders (content : Str) : List Str := findAllAux matchHeaderAt 0 true content

/-- The function `parseMarkdownFile`; an error is given by its message. -/
def parseMarkdownFile (env : Env) (content : Str) : Except String BlogPost :=
  let sections := splitN2 content "---".toList
  if sections.length < 2 then .error "invalid markdown format"
  else
    let metadata := replaceAll (sections.getD 0 []) "\r".toList []
    let mdContent := replaceAll (sections.getD 1 []) "\r".toList []
    let md := parseMetadata metadata
    .ok { Title := md.title
          Slug := md.slug
          Parent := md.parent
          Description := md.description
          Content := env.mdToHTML mdContent
          Headers := extractHeaders mdContent
          Order := md.order
          MetaDescription := md.metaDescription
          MetaPropertyTitle := md.metaPropertyTitle
          MetaPropertyDescription := md.metaPropertyDescription
          MetaOgURL := md.metaOgURL }

/-! ## The navigation hierarchy -/

/-- One round of Go's insertion sort (`insertionSortLessFunc`), the algorithm
that `sort.Slice` runs on a short slice (of at most twelve elements in the
pattern-defeating quicksort of package `sort`): `x` moves left over the
elements it is less than.  The sorted part is held reversed, nearest element
first. -/
def insertLeft {α : Type} (less : α → α → Bool) (x : α) : List α → List α
  | [] => [x]
  | y :: ys => if less x y then y :: insertLeft less x ys else x :: y :: ys

/-- Go's insertion sort on a whole slice. -/
def insertionSort (α : Type) (less : α → α → Bool) (l : List α) : List α :=
  (l.foldl (fun sortedRev x => insertLeft less x sortedRev) []).reverse

/-- The `less` function given to `sort.Slice` for the pages of a category. -/
def pageLess (a b : BlogPost) : Bool := decide (a.Order < b.Order)

/-- The `less` function given to `sort.Slice` for the categories. -/
def categoryLess (table : Char → Char) (a b : Category) : Bool :=
  if a.Order = b.Order then strLess (toLower table a.Name) (toLower table b.Name)
  else decide (a.Order < b.Order)

/-- The two branches on `categoriesMap[post.Parent]`; the map is the list of
its entries, oldest first, each category being its own key `Name`. -/
def addPost (post : BlogPost) : List Category → List Category
  | [] => [{ Name := post.Parent, Pages := [post], Order := post.Order }]
  | cat :: rest =>
    if cat.Name = post.Parent then
      { cat with
        Pages := cat.Pages ++ [post]
        Order := if post.Order < cat.Order then post.Order else cat.Order } :: rest
    else cat :: addPost post rest

/-- The grouping loop of `loadSidebarData` over the posts. -/
def groupPosts (posts : List BlogPost) : List Category :=
  posts.foldl (fun m post => if trimSpace post.Parent = [] then m else addPost post m) []

/-- The part of `loadSidebarData` that follows the loading of the posts:
grouping by `Parent`, sorting the pages of each category, collecting the
categories in the order of the map iteration and sorting them. -/
def buildSidebar (env : Env) (posts : List BlogPost) : SidebarData :=
  let categoriesMap := groupPosts posts
  let collected := (env.mapRange categoriesMap).map
    (fun cat => { cat with Pages := env.sortSlice BlogPost pageLess cat.Pages })
  { Categories := env.sortSlice Category (categoryLess env.unicodeLower) collected }

/-- The function `strings.HasSuffix`. -/
def hasSuffix (s suffix : Str) : Bool := suffix.reverse.isPrefixOf s.reverse

/-- An entry of the markdown directory: the name of the file and the result of
`os.ReadFile` on it, the content or the message of the error. -/
structure DirEntry where
  name : Str
  content : Except String Str

/-- The function `loadMarkdownPosts`; `dir` is the result of `os.ReadDir`. -/
def loadMarkdownPosts (env : Env) (dir : Except String (List DirEntry)) :
    Except String (List BlogPost) :=
  match dir with
  | .error e => .error e
  | .ok files =>
    files.foldlM (fun posts file =>
      if file.name = "index.md".toList ∨ file.name = "about.md".toList then pure posts
      else if !hasSuffix file.name ".md".toList then pure posts
      else match file.content with
        | .error e => .error e
        | .ok content =>
          match parseMarkdownFile env content with
          | .error e => .error e
          | .ok post => pure (posts ++ [post])) []

/-- The function `loadSidebarData`; `about` is the result of `os.ReadFile` on
`about.md`. -/
def loadSidebarData (env : Env) (dir : Except String (List DirEntry))
    (about : Except String Str) : Except String SidebarData :=
  match loadMarkdownPosts env dir with
  | .error e => .error e
  | .ok posts =>
    let posts := match about with
      | .error _ => posts
      | .ok aboutContent =>
        match parseMarkdownFile env aboutContent with
        | .ok aboutPost => posts ++ [aboutPost]
        | .error _ => posts
    .ok (buildSidebar env posts)

/-! ## In-page anchors -/

/-- The function `sanitizeHeaderForID`. -/
def sanitizeHeaderForID (table : Char → Char) (header : Str) : Str :=
  let header := toLower table header
  let header := replaceAll header " ".toList "-".toList
  header.filter isAnchorChar

/-- The function `createSidebarLinks`. -/
def createSidebarLinks (table : Char → Char) (headers : List Str) : Str :=
  headers.foldl (fun linksHTML header =>
    linksHTML ++ ("<li><a href=\"#".toList ++ sanitizeHeaderForID table header ++
      "\">".toList ++ header ++ "</a></li>".toList)) []

/-! ## Contracts of the runtime -/

/-- A `less` function describes a strict weak ordering, as `sort.Slice` asks. -/
structure StrictWeak {α : Type} (less : α → α → Bool) : Prop where
  irrefl : ∀ a, less a a = false
  trans : ∀ a b c, less a b = true → less b c = true → less a c = true
  incomp : ∀ a b c, less a b = false → less b c = false → less a c = false

/-- The documented contracts of `sort.Slice` and of `range` over a map: the
sorted slice is a rearrangement of the given one in which no element is less
than an earlier one, and the iteration visits every entry exactly once. -/
structure Env.Lawful (env : Env) : Prop where
  sort_perm : ∀ (α : Type) (less : α → α → Bool) (l : List α),
    (env.sortSlice α less l).Perm l
  sort_sorted : ∀ (α : Type) (less : α → α → Bool) (l : List α), StrictWeak less →
    (env.sortSlice α less l).Pairwise (fun a b => less b a = false)
  range_perm : ∀ m : List Category, (env.mapRange m).Perm m

/-- A concrete runtime: Go's insertion sort (the algorithm of `sort.Slice` on
short slices), map iteration in order of insertion, a case table that leaves
runes outside ASCII alone and a renderer that returns its input.  On ASCII
text and slices of at most twelve elements it computes what the Go program
computes for one admissible order of map iteration. -/
def goEnv : Env where
  unicodeLower := id
  mdToHTML := id
  sortSlice := insertionSort
  mapRange := id

/-! ## Notions used in the statements -/

/-- A string is blank when it is empty or holds white space only. -/
def isBlank (s : Str) : Bool := s.all isSpace

/-- A post that has a title, a parent and an order, and nothing else. -/
def plainPost (title parent : String) (order : Int) : BlogPost :=
  { Title := title.toList, Slug := [], Parent := parent.toList, Content := [],
    Description := [], Order := order, Headers := [], MetaDescription := [],
    MetaPropertyTitle := [], MetaPropertyDescription := [], MetaOgURL := [] }

/-- The characters an anchor may hold: `a` to `z`, `0` to `9` and the hyphen. -/
def anchorAlphabet : List Char := "abcdefghijklmnopqrstuvwxyz0123456789-".toList

/-- The anchor of a heading as the specification words it: lower-case every
rune, turn every space into a hyphen, then delete every rune outside
`anchorAlphabet`. -/
def anchorSpec (table : Char → Char) (h : Str) : Str :=
  ((h.map (toLowerRune table)).map (fun c => if c = ' ' then '-' else c)).filter
    (fun c => decide (c ∈ anchorAlphabet))

/-- The value of a decimal digit. -/
def digitValue (c : Char) : Option Nat :=
  if '0'.toNat ≤ c.toNat ∧ c.toNat ≤ '9'.toNat then some (c.toNat - '0'.toNat) else none

/-- The string `s` is the decimal numeral of the natural number `n`: one digit,
or a numeral followed by one more digit. -/
inductive DecimalNat : Str → Nat → Prop
  | digit (c : Char) (d : Nat) : digitValue c = some d → DecimalNat [c] d
  | snoc (s : Str) (n : Nat) (c : Char) (d : Nat) :
    DecimalNat s n → digitValue c = some d → DecimalNat (s ++ [c]) (10 * n + d)

/-- The string `s` is the decimal integer `n`: a decimal numeral, alone or
after one sign. -/
inductive DecimalInt : Str → Int → Prop
  | unsigned (s : Str) (n : Nat) : DecimalNat s n → DecimalInt s n
  | plus (s : Str) (n : Nat) : DecimalNat s n → DecimalInt ('+' :: s) n
  | minus (s : Str) (n : Nat) : DecimalNat s n → DecimalInt ('-' :: s) (-(n : Int))

/-- The string `orderStr` of `parseMetadata`: the entry of the map for the key
`Order`, trimmed. -/
def orderValue (metadata : Str) : Str :=
  trimSpace (metaDataMap (findAllMeta metadata) "Order".toList)

/-- The text whose lines are `ls`: the lines with a newline between each two. -/
def joinLines : List Str → Str
  | [] => []
  | [l] => l
  | l :: rest => l ++ '\n' :: joinLines rest

/-- What a line of the metadata block declares: for a line made of a word, a
colon and a rest, the word as key and the rest without its leading white
space as value. -/
def metaOfLine (l : Str) : Option (Str × Str) :=
  match l.dropWhile isWord with
  | ':' :: r => if (l.takeWhile isWord).isEmpty then none
    else some (l.takeWhile isWord, r.dropWhile isReSpace)
  | _ => none

/-- The heading a line of the body declares: for a line that begins with `##`
and white space, the rest of the line after that white space. -/
def headerOfLine (l : Str) : Option Str :=
  match l with
  | '#' :: '#' :: c :: r => if isReSpace c then some ((c :: r).dropWhile isReSpace) else none
  | _ => none

/-- A line made of a word, a colon and nothing but white space: a key whose
value is blank. -/
def blankValued (l : Str) : Prop :=
  ∃ k r, l = k ++ ':' :: r ∧ k ≠ [] ∧ (∀ c ∈ k, isWord c = true) ∧
    ∀ c ∈ r, isReSpace c = true

/-- The recognized keys that fill a text field, each with its field. -/
def recognizedFields : List (Str × (BlogPost → Str)) :=
  [("Title".toList, BlogPost.Title), ("Slug".toList, BlogPost.Slug),
   ("Parent".toList, BlogPost.Parent), ("Description".toList, BlogPost.Description),
   ("MetaDescription".toList, BlogPost.MetaDescription),
   ("MetaPropertyTitle".toList, BlogPost.MetaPropertyTitle),
   ("MetaPropertyDescription".toList, BlogPost.MetaPropertyDescription),
   ("MetaOgURL".toList, BlogPost.MetaOgURL)]

/-- What the grouping loop has established after the posts `posts`. -/
structure GroupInv (m : List Category) (posts : List BlogPost) : Prop where
  nodup : (m.map Category.Name).Nodup
  pages : ∀ c ∈ m, c.Pages =
    posts.filter (fun p => decide (trimSpace p.Parent ≠ [] ∧ p.Parent = c.Name))
  nonempty : ∀ c ∈ m, c.Pages ≠ []
  order_le : ∀ c ∈ m, ∀ p ∈ c.Pages, c.Order ≤ p.Order
  order_mem : ∀ c ∈ m, ∃ p ∈ c.Pages, p.Order = c.Order
  all : (m.flatMap Category.Pages).Perm (posts.filter (fun p => decide (trimSpace p.Parent ≠ [])))


/-! ## The delimiter -/

theorem index_eq_none_iff (sep : Str) (hsep : sep ≠ []) (s : Str) :
    index sep s = none ↔ ¬ sep <:+: s := by
  induction s with
  | nil =>
    cases sep with
    | nil => exact absurd rfl hsep
    | cons a t => simp [index]
  | cons c cs ih =>
    by_cases hp : sep <+: c :: cs
    · have : sep.isPrefixOf (c :: cs) = true := List.isPrefixOf_iff_prefix.mpr hp
      simp [index, this, hp.isInfix]
    · have : sep.isPrefixOf (c :: cs) = false := by
        rw [Bool.eq_false_iff]; intro h; exact hp (List.isPrefixOf_iff_prefix.mp h)
      simp [index, this, ih, List.infix_cons_iff, hp]

theorem prefix_overlap (sep x post : Str) (hx : x ≠ []) (h : sep <+: x ++ sep ++ post) :
    sep <+: x ++ sep.dropLast := by
  have h2 : x ++ sep.dropLast <+: x ++ sep ++ post := by
    rw [List.append_assoc]
    exact (List.prefix_append_right_inj x).mpr
      ((List.dropLast_prefix sep).trans (List.prefix_append sep post))
  refine List.prefix_of_prefix_length_le h h2 ?_
  have : 0 < x.length := List.length_pos.mpr hx
  simp only [List.length_append, List.length_dropLast]
  omega

theorem index_append_of_first (sep pre post : Str) (hsep : sep ≠ [])
    (hfirst : ¬ sep <:+: pre ++ sep.dropLast) :
    index sep (pre ++ sep ++ post) = some pre.length := by
  induction pre with
  | nil =>
    cases sep with
    | nil => exact absurd rfl hsep
    | cons a t =>
      have : (a :: t).isPrefixOf (a :: t ++ post) = true :=
        List.isPrefixOf_iff_prefix.mpr (List.prefix_append _ _)
      simp [index]
  | cons c cs ih =>
    have h1 : ¬ sep <+: (c :: cs) ++ sep ++ post := fun hp =>
      hfirst (prefix_overlap sep (c :: cs) post (by simp) hp).isInfix
    have h2 : sep.isPrefixOf (c :: (cs ++ sep ++ post)) = false := by
      rw [Bool.eq_false_iff]; intro h; exact h1 (by simpa using List.isPrefixOf_iff_prefix.mp h)
    have h3 : ¬ sep <:+: cs ++ sep.dropLast := fun hi =>
      hfirst (by simpa using List.infix_cons hi)
    show index sep (c :: (cs ++ sep ++ post)) = some (cs.length + 1)
    simp only [index, h2, ih h3]
    rfl

theorem splitN2_of_first (sep pre post : Str) (hsep : sep ≠ [])
    (hfirst : ¬ sep <:+: pre ++ sep.dropLast) :
    splitN2 (pre ++ sep ++ post) sep = [pre, post] := by
  unfold splitN2
  rw [index_append_of_first sep pre post hsep hfirst]
  simp

theorem splitN2_length (sep : Str) (hsep : sep ≠ []) (s : Str) :
    (splitN2 s sep).length < 2 ↔ ¬ sep <:+: s := by
  rw [← index_eq_none_iff sep hsep s]
  unfold splitN2
  cases index sep s <;> simp

/-- C1: `parseMarkdownFile` fails exactly on the contents without the delimiter
`---`; its only error is "invalid markdown format", whatever the content; a
content with the delimiter yields a document. -/
theorem parseMarkdownFile_error_iff_no_delimiter (env : Env) (content : Str) :
    ((∃ e, parseMarkdownFile env content = .error e) ↔ ¬ "---".toList <:+: content) ∧
    (∀ e, parseMarkdownFile env content = .error e → e = "invalid markdown format") ∧
    ("---".toList <:+: content → ∃ post, parseMarkdownFile env content = .ok post) := by
  have hlen := splitN2_length "---".toList (by decide) content
  by_cases hc : "---".toList <:+: content
  · have h2 : ¬ (splitN2 content "---".toList).length < 2 := fun h => hlen.mp h hc
    unfold parseMarkdownFile
    simp only [if_neg h2]
    refine ⟨⟨fun ⟨e, he⟩ => (by cases he), fun h => absurd hc h⟩, fun e he => (by cases he),
      fun _ => ⟨_, rfl⟩⟩
  · have h2 : (splitN2 content "---".toList).length < 2 := hlen.mpr hc
    unfold parseMarkdownFile
    simp only [if_pos h2]
    refine ⟨⟨fun _ => hc, fun _ => ⟨_, rfl⟩⟩, fun e he => ?_, fun h => absurd h hc⟩
    cases he
    rfl

/-! ## Orderings and the sort contract -/

theorem strLess_irrefl (a : Str) : strLess a a = false := by
  induction a with
  | nil => rfl
  | cons x xs ih => simp [strLess, ih]

theorem strLess_trans (a b c : Str) (h1 : strLess a b = true) (h2 : strLess b c = true) :
    strLess a c = true := by
  induction a generalizing b c with
  | nil =>
    cases b with
    | nil => simp [strLess] at h1
    | cons y ys =>
      cases c with
      | nil => simp [strLess] at h2
      | cons z zs => simp [strLess]
  | cons x xs ih =>
    cases b with
    | nil => simp [strLess] at h1
    | cons y ys =>
      cases c with
      | nil => simp [strLess] at h2
      | cons z zs =>
        simp only [strLess] at h1 h2 ⊢
        split_ifs at h1 h2 ⊢ <;> first | rfl | omega | exact ih _ _ h1 h2

theorem strLess_incomp (a b c : Str) (h1 : strLess a b = false) (h2 : strLess b c = false) :
    strLess a c = false := by
  induction a generalizing b c with
  | nil =>
    cases b with
    | nil => cases c <;> simp_all [strLess]
    | cons y ys => simp [strLess] at h1
  | cons x xs ih =>
    cases b with
    | nil =>
      cases c with
      | nil => simp [strLess]
      | cons z zs => simp [strLess] at h2
    | cons y ys =>
      cases c with
      | nil => simp [strLess]
      | cons z zs =>
        simp only [strLess] at h1 h2 ⊢
        split_ifs at h1 h2 ⊢ <;> first | rfl | omega | exact ih _ _ h1 h2

theorem strictWeak_pageLess : StrictWeak pageLess where
  irrefl a := by simp [pageLess]
  trans a b c h1 h2 := by
    simp only [pageLess, decide_eq_true_eq] at h1 h2 ⊢
    omega
  incomp a b c h1 h2 := by
    simp only [pageLess, decide_eq_false_iff_not] at h1 h2 ⊢
    omega

theorem strictWeak_categoryLess (table : Char → Char) : StrictWeak (categoryLess table) where
  irrefl a := by simp [categoryLess, strLess_irrefl]
  trans a b c h1 h2 := by
    unfold categoryLess at h1 h2 ⊢
    split_ifs at h1 h2 ⊢ <;>
      first
      | exact strLess_trans _ _ _ h1 h2
      | ((try simp only [decide_eq_true_eq] at h1 h2 ⊢); omega)
  incomp a b c h1 h2 := by
    unfold categoryLess at h1 h2 ⊢
    split_ifs at h1 h2 ⊢ <;>
      first
      | exact strLess_incomp _ _ _ h1 h2
      | ((try simp only [decide_eq_false_iff_not] at h1 h2 ⊢); omega)

theorem StrictWeak.asymm {α : Type} {less : α → α → Bool} (h : StrictWeak less) (a b : α)
    (hab : less a b = true) : less b a = false := by
  cases hba : less b a with
  | false => rfl
  | true =>
    have := h.trans a b a hab hba
    rw [h.irrefl a] at this
    cases this

theorem insertLeft_perm {α : Type} (less : α → α → Bool) (x : α) (l : List α) :
    (insertLeft less x l).Perm (x :: l) := by
  induction l with
  | nil => exact List.Perm.refl _
  | cons y ys ih =>
    unfold insertLeft
    split_ifs
    · exact (List.Perm.cons y ih).trans (List.Perm.swap x y ys)
    · exact List.Perm.refl _

theorem insertLeft_sorted {α : Type} {less : α → α → Bool} (h : StrictWeak less) (x : α)
    (l : List α) (hl : l.Pairwise (fun a b => less a b = false)) :
    (insertLeft less x l).Pairwise (fun a b => less a b = false) := by
  induction l with
  | nil => simp [insertLeft]
  | cons y ys ih =>
    rw [List.pairwise_cons] at hl
    unfold insertLeft
    split_ifs with hxy
    · rw [List.pairwise_cons]
      refine ⟨fun w hw => ?_, ih hl.2⟩
      rcases List.mem_cons.mp ((insertLeft_perm less x ys).mem_iff.mp hw) with hw | hw
      · rw [hw]; exact h.asymm x y hxy
      · exact hl.1 w hw
    · have hxy2 : less x y = false := by simpa using hxy
      rw [List.pairwise_cons]
      refine ⟨fun w hw => ?_, List.pairwise_cons.mpr hl⟩
      rcases List.mem_cons.mp hw with hw | hw
      · rw [hw]; exact hxy2
      · exact h.incomp x y w hxy2 (hl.1 w hw)

theorem insertionSort_perm (α : Type) (less : α → α → Bool) (l : List α) :
    (insertionSort α less l).Perm l := by
  unfold insertionSort
  refine (List.reverse_perm _).trans ?_
  suffices H : ∀ acc : List α,
      (l.foldl (fun sortedRev x => insertLeft less x sortedRev) acc).Perm (l.reverse ++ acc) by
    simpa using (H []).trans (by simp)
  induction l with
  | nil => intro acc; exact List.Perm.refl _
  | cons x xs ih =>
    intro acc
    simp only [List.foldl_cons, List.reverse_cons, List.append_assoc, List.singleton_append]
    exact (ih _).trans (List.Perm.append_left _ (insertLeft_perm less x acc))

theorem insertionSort_sorted (α : Type) (less : α → α → Bool) (l : List α)
    (h : StrictWeak less) :
    (insertionSort α less l).Pairwise (fun a b => less b a = false) := by
  unfold insertionSort
  rw [List.pairwise_reverse]
  suffices H : ∀ acc : List α, acc.Pairwise (fun a b => less a b = false) →
      (l.foldl (fun sortedRev x => insertLeft less x sortedRev) acc).Pairwise
        (fun a b => less a b = false) from H [] List.Pairwise.nil
  induction l with
  | nil => intro acc hacc; exact hacc
  | cons x xs ih =>
    intro acc hacc
    exact ih _ (insertLeft_sorted h x acc hacc)

theorem goEnv_lawful : goEnv.Lawful where
  sort_perm := insertionSort_perm
  sort_sorted := insertionSort_sorted
  range_perm m := List.Perm.refl m

/-! ## The grouping loop -/

theorem addPost_spec (post : BlogPost) (m : List Category) :
    (post.Parent ∉ m.map Category.Name ∧
      addPost post m = m ++ [{ Name := post.Parent, Pages := [post], Order := post.Order }]) ∨
    (∃ l1 c l2, m = l1 ++ c :: l2 ∧ c.Name = post.Parent ∧
      post.Parent ∉ l1.map Category.Name ∧
      addPost post m = l1 ++ { c with
        Pages := c.Pages ++ [post]
        Order := if post.Order < c.Order then post.Order else c.Order } :: l2) := by
  induction m with
  | nil => left; simp [addPost]
  | cons cat rest ih =>
    by_cases hn : cat.Name = post.Parent
    · right
      exact ⟨[], cat, rest, rfl, hn, by simp, by simp [addPost, hn]⟩
    · rcases ih with ⟨h1, h2⟩ | ⟨l1, c, l2, h1, h2, h3, h4⟩
      · left
        refine ⟨?_, by simp [addPost, hn, h2]⟩
        simp only [List.map_cons, List.mem_cons, not_or]
        exact ⟨fun h => hn h.symm, h1⟩
      · right
        refine ⟨cat :: l1, c, l2, by simp [h1], h2, ?_, by simp [addPost, hn, h4]⟩
        simp only [List.map_cons, List.mem_cons, not_or]
        exact ⟨fun h => hn h.symm, h3⟩

theorem groupInv_step_blank {m : List Category} {posts : List BlogPost} (h : GroupInv m posts)
    (post : BlogPost) (hb : trimSpace post.Parent = []) : GroupInv m (posts ++ [post]) where
  nodup := h.nodup
  pages c hc := by simp [h.pages c hc, List.filter_append, hb]
  nonempty := h.nonempty
  order_le := h.order_le
  order_mem := h.order_mem
  all := by simpa [List.filter_append, hb] using h.all

theorem GroupInv.covered {m : List Category} {posts : List BlogPost} (h : GroupInv m posts)
    (q : BlogPost) (hq : q ∈ posts) (hb : trimSpace q.Parent ≠ []) :
    q.Parent ∈ m.map Category.Name := by
  have h1 : q ∈ m.flatMap Category.Pages :=
    h.all.mem_iff.mpr (List.mem_filter.mpr ⟨hq, by simpa using hb⟩)
  obtain ⟨c, hc, hqc⟩ := List.mem_flatMap.mp h1
  rw [h.pages c hc, List.mem_filter] at hqc
  have h2 : q.Parent = c.Name := (of_decide_eq_true hqc.2).2
  rw [h2]
  exact List.mem_map_of_mem _ hc

theorem groupInv_step_add {m : List Category} {posts : List BlogPost} (h : GroupInv m posts)
    (post : BlogPost) (hb : trimSpace post.Parent ≠ []) :
    GroupInv (addPost post m) (posts ++ [post]) := by
  rcases addPost_spec post m with ⟨h1, h2⟩ | ⟨l1, c, l2, h1, h2, h3, h4⟩
  · rw [h2]
    have hne : ∀ d ∈ m, ¬ post.Parent = d.Name := fun d hd he =>
      h1 (he ▸ List.mem_map_of_mem _ hd)
    refine ⟨?_, ?_, ?_, ?_, ?_, ?_⟩
    · simp only [List.map_append, List.map_cons, List.map_nil]
      exact List.Nodup.append h.nodup (by simp) (by simpa using h1)
    · intro d hd
      rcases List.mem_append.mp hd with hd | hd
      · simp [h.pages d hd, List.filter_append, hne d hd]
      · rw [List.mem_singleton] at hd
        subst hd
        have : posts.filter (fun p => decide (trimSpace p.Parent ≠ [] ∧ p.Parent = post.Parent))
            = [] := by
          rw [List.filter_eq_nil_iff]
          intro q hq hd
          have := of_decide_eq_true hd
          exact h1 (this.2 ▸ h.covered q hq this.1)
        rw [List.filter_append, this]
        simp [hb]
    · intro d hd
      rcases List.mem_append.mp hd with hd | hd
      · exact h.nonempty d hd
      · rw [List.mem_singleton] at hd; subst hd; simp
    · intro d hd
      rcases List.mem_append.mp hd with hd | hd
      · exact h.order_le d hd
      · rw [List.mem_singleton] at hd; subst hd
        intro p hp
        rw [List.mem_singleton.mp hp]
    · intro d hd
      rcases List.mem_append.mp hd with hd | hd
      · exact h.order_mem d hd
      · rw [List.mem_singleton] at hd; subst hd
        exact ⟨post, by simp, rfl⟩
    · simp only [List.flatMap_append, List.flatMap_cons, List.flatMap_nil, List.append_nil,
        List.filter_append]
      refine List.Perm.append h.all ?_
      simp [hb]
  · rw [h4]
    subst h1
    have hnd := h.nodup
    simp only [List.map_append, List.map_cons] at hnd
    have hne : ∀ d, d ∈ l1 ∨ d ∈ l2 → ¬ post.Parent = d.Name := by
      intro d hd he
      rw [← h2] at he
      rcases hd with hd | hd
      · exact (List.nodup_append.mp hnd).2.2 (List.mem_map_of_mem _ hd)
          (he ▸ List.mem_cons_self _ _)
      · exact (List.nodup_cons.mp (List.nodup_append.mp hnd).2.1).1
          (he ▸ List.mem_map_of_mem _ hd)
    have hmem : ∀ d, d ∈ l1 ∨ d ∈ l2 → d ∈ l1 ++ c :: l2 := by
      intro d hd
      rcases hd with hd | hd <;> simp [hd]
    have hc : c ∈ l1 ++ c :: l2 := by simp
    refine ⟨?_, ?_, ?_, ?_, ?_, ?_⟩
    · simpa using hnd
    · intro d hd
      rcases List.mem_append.mp hd with hd | hd
      · simp [h.pages d (hmem d (Or.inl hd)), List.filter_append, hne d (Or.inl hd)]
      · rcases List.mem_cons.mp hd with hd | hd
        · subst hd
          simp [h.pages c hc, List.filter_append, hb, h2]
        · simp [h.pages d (hmem d (Or.inr hd)), List.filter_append, hne d (Or.inr hd)]
    · intro d hd
      rcases List.mem_append.mp hd with hd | hd
      · exact h.nonempty d (hmem d (Or.inl hd))
      · rcases List.mem_cons.mp hd with hd | hd
        · subst hd; simp
        · exact h.nonempty d (hmem d (Or.inr hd))
    · intro d hd
      rcases List.mem_append.mp hd with hd | hd
      · exact h.order_le d (hmem d (Or.inl hd))
      · rcases List.mem_cons.mp hd with hd | hd
        · subst hd
          intro p hp
          rcases List.mem_append.mp hp with hp | hp
          · have := h.order_le c hc p hp
            show (if post.Order < c.Order then post.Order else c.Order) ≤ p.Order
            split_ifs <;> omega
          · rw [List.mem_singleton.mp hp]
            show (if post.Order < c.Order then post.Order else c.Order) ≤ post.Order
            split_ifs <;> omega
        · exact h.order_le d (hmem d (Or.inr hd))
    · intro d hd
      rcases List.mem_append.mp hd with hd | hd
      · exact h.order_mem d (hmem d (Or.inl hd))
      · rcases List.mem_cons.mp hd with hd | hd
        · subst hd
          obtain ⟨p, hp, hpo⟩ := h.order_mem c hc
          show ∃ p ∈ c.Pages ++ [post],
            p.Order = (if post.Order < c.Order then post.Order else c.Order)
          by_cases hlt : post.Order < c.Order
          · exact ⟨post, by simp, by simp [hlt]⟩
          · exact ⟨p, by simp [hp], by simp [hlt, hpo]⟩
        · exact h.order_mem d (hmem d (Or.inr hd))
    · have hall := h.all
      simp only [List.flatMap_append, List.flatMap_cons, List.filter_append] at hall ⊢
      have e : posts.filter (fun p => decide (trimSpace p.Parent ≠ [])) ++
          [post].filter (fun p => decide (trimSpace p.Parent ≠ [])) =
          posts.filter (fun p => decide (trimSpace p.Parent ≠ [])) ++ [post] := by
        simp [hb]
      rw [e]
      refine List.Perm.trans ?_ (List.Perm.append_right [post] hall)
      simp only [List.append_assoc]
      refine List.Perm.append_left _ (List.Perm.append_left _ ?_)
      exact List.perm_append_comm

theorem groupInv_groupPosts (posts : List BlogPost) : GroupInv (groupPosts posts) posts := by
  induction posts using List.reverseRecOn with
  | nil => exact ⟨by simp [groupPosts], by simp [groupPosts], by simp [groupPosts],
      by simp [groupPosts], by simp [groupPosts], by simp [groupPosts]⟩
  | append_singleton l a ih =>
    have e : groupPosts (l ++ [a]) =
        if trimSpace a.Parent = [] then groupPosts l else addPost a (groupPosts l) := by
      simp [groupPosts, List.foldl_append]
    rw [e]
    split_ifs with hb
    · exact groupInv_step_blank ih a hb
    · exact groupInv_step_add ih a hb

/-! ## The navigation tree -/

theorem trimSpace_eq_nil_iff (s : Str) : trimSpace s = [] ↔ isBlank s = true := by
  unfold trimSpace isBlank
  rw [List.reverse_eq_nil_iff, List.dropWhile_eq_nil_iff, List.all_eq_true]
  constructor
  · intro h x hx
    by_contra hsp
    have hd : s.dropWhile isSpace ≠ [] := by
      rw [Ne, List.dropWhile_eq_nil_iff]
      intro hall
      exact hsp (hall x hx)
    have h1 := List.head_dropWhile_not isSpace s hd
    rw [h _ (List.mem_reverse.mpr (List.head_mem hd))] at h1
    cases h1
  · intro h x hx
    exact h x ((List.dropWhile_sublist _).subset (List.mem_reverse.mp hx))

theorem buildSidebar_perm (env : Env) (h : env.Lawful) (posts : List BlogPost) :
    (buildSidebar env posts).Categories.Perm ((groupPosts posts).map
      (fun cat => { cat with Pages := env.sortSlice BlogPost pageLess cat.Pages })) :=
  (h.sort_perm _ _ _).trans ((h.range_perm _).map _)

theorem mem_buildSidebar (env : Env) (h : env.Lawful) (posts : List BlogPost) (c : Category) :
    c ∈ (buildSidebar env posts).Categories ↔ ∃ c0 ∈ groupPosts posts,
      c = { c0 with Pages := env.sortSlice BlogPost pageLess c0.Pages } := by
  rw [(buildSidebar_perm env h posts).mem_iff, List.mem_map]
  constructor
  · rintro ⟨c0, h0, rfl⟩; exact ⟨c0, h0, rfl⟩
  · rintro ⟨c0, h0, rfl⟩; exact ⟨c0, h0, rfl⟩

/-- Every navigation tree that `loadSidebarData` returns is `buildSidebar` of
the posts it has loaded. -/
theorem loadSidebarData_ok (env : Env) (dir : Except String (List DirEntry))
    (about : Except String Str) (sidebar : SidebarData)
    (h : loadSidebarData env dir about = .ok sidebar) :
    ∃ posts, sidebar = buildSidebar env posts := by
  unfold loadSidebarData at h
  cases hl : loadMarkdownPosts env dir with
  | error e => rw [hl] at h; cases h
  | ok posts =>
    rw [hl] at h
    simp only [Except.ok.injEq] at h
    exact ⟨_, h.symm⟩

/-- C4: in the navigation tree built with any lawful runtime, the Order of
every category is the least Order of its pages: some page has it and no page
has a smaller one. -/
theorem category_order_is_min (env : Env) (h : env.Lawful) (posts : List BlogPost) :
    ∀ c ∈ (buildSidebar env posts).Categories,
      (∃ p ∈ c.Pages, p.Order = c.Order) ∧ ∀ p ∈ c.Pages, c.Order ≤ p.Order := by
  intro c hc
  obtain ⟨c0, h0, rfl⟩ := (mem_buildSidebar env h posts c).mp hc
  have inv := groupInv_groupPosts posts
  have hp := h.sort_perm BlogPost pageLess c0.Pages
  constructor
  · obtain ⟨p, hp1, hp2⟩ := inv.order_mem c0 h0
    exact ⟨p, hp.mem_iff.mpr hp1, hp2⟩
  · intro p hp1
    exact inv.order_le c0 h0 p (hp.mem_iff.mp hp1)

/-- C4 at the concrete runtime, for the category built from two posts of
parent "Guides". -/
theorem category_order_is_min_witness :
    goEnv.Lawful ∧
    ({ Name := "Guides".toList
       Pages := [plainPost "b" "Guides" 1, plainPost "a" "Guides" 2]
       Order := 1 } : Category) ∈
      (buildSidebar goEnv [plainPost "a" "Guides" 2, plainPost "b" "Guides" 1]).Categories ∧
    (∃ p ∈ [plainPost "b" "Guides" 1, plainPost "a" "Guides" 2], p.Order = (1 : Int)) ∧
    ∀ p ∈ [plainPost "b" "Guides" 1, plainPost "a" "Guides" 2], (1 : Int) ≤ p.Order :=
  ⟨goEnv_lawful, by decide,
    category_order_is_min goEnv goEnv_lawful
      [plainPost "a" "Guides" 2, plainPost "b" "Guides" 1]
      { Name := "Guides".toList
        Pages := [plainPost "b" "Guides" 1, plainPost "a" "Guides" 2]
        Order := 1 } (by decide)⟩

theorem perm_pair {α : Type} {l : List α} {x y : α} (h : l.Perm [x, y]) :
    l = [x, y] ∨ l = [y, x] := by
  match l, h.length_eq with
  | [a, b], _ =>
    have ha : a ∈ [x, y] := h.mem_iff.mp (by simp)
    rcases List.mem_cons.mp ha with rfl | ha
    · left
      have := (List.perm_cons a).mp h
      rw [List.perm_singleton.mp this]
    · rw [List.mem_singleton] at ha
      subst ha
      right
      have h2 : [a, b].Perm [a, x] := h.trans (List.Perm.swap a x [])
      have := (List.perm_cons a).mp h2
      rw [List.perm_singleton.mp this]

theorem sortSlice_pair (env : Env) (h : env.Lawful) {α : Type} (less : α → α → Bool)
    (hs : StrictWeak less) (x y : α) (hxy : less x y = true) :
    env.sortSlice α less [x, y] = [x, y] ∧ env.sortSlice α less [y, x] = [x, y] := by
  have key : ∀ l : List α, l.Perm [x, y] → l.Pairwise (fun a b => less b a = false) →
      l = [x, y] := by
    intro l hp hsrt
    rcases perm_pair hp with e | e
    · exact e
    · rw [e] at hsrt
      have := (List.pairwise_cons.mp hsrt).1 x (by simp)
      rw [hxy] at this
      cases this
  exact ⟨key _ (h.sort_perm _ _ _) (h.sort_sorted _ _ _ hs),
    key _ ((h.sort_perm _ _ _).trans (List.Perm.swap x y [])) (h.sort_sorted _ _ _ hs)⟩

theorem sortSlice_singleton (env : Env) (h : env.Lawful) {α : Type} (less : α → α → Bool)
    (x : α) : env.sortSlice α less [x] = [x] :=
  List.perm_singleton.mp (h.sort_perm _ _ _)

theorem mapRange_singleton (env : Env) (h : env.Lawful) (c : Category) :
    env.mapRange [c] = [c] :=
  List.perm_singleton.mp (h.range_perm _)

/-- C9: in the navigation tree built with any lawful runtime, the pages of
every category are in non-decreasing Order; two posts of parent "Guides" given
with Orders 2 and 1 yield the single category "Guides" of Order 1 whose pages
are the post of Order 1 followed by the post of Order 2. -/
theorem pages_sorted_by_order (env : Env) (h : env.Lawful) (posts : List BlogPost)
    (d1 d2 : BlogPost) :
    (∀ c ∈ (buildSidebar env posts).Categories,
      c.Pages.Pairwise (fun a b => a.Order ≤ b.Order)) ∧
    (buildSidebar env [{ d1 with Parent := "Guides".toList, Order := 2 },
        { d2 with Parent := "Guides".toList, Order := 1 }]).Categories =
      [{ Name := "Guides".toList
         Pages := [{ d2 with Parent := "Guides".toList, Order := 1 },
           { d1 with Parent := "Guides".toList, Order := 2 }]
         Order := 1 }] := by
  constructor
  · intro c hc
    obtain ⟨c0, _, rfl⟩ := (mem_buildSidebar env h posts c).mp hc
    refine (h.sort_sorted BlogPost pageLess c0.Pages strictWeak_pageLess).imp ?_
    intro a b hab
    simpa [pageLess] using hab
  · have hg : trimSpace ['G', 'u', 'i', 'd', 'e', 's'] ≠ [] := by decide
    have e : groupPosts [{ d1 with Parent := "Guides".toList, Order := 2 },
        { d2 with Parent := "Guides".toList, Order := 1 }] =
        [{ Name := "Guides".toList
           Pages := [{ d1 with Parent := "Guides".toList, Order := 2 },
             { d2 with Parent := "Guides".toList, Order := 1 }]
           Order := 1 }] := by
      simp [groupPosts, addPost, hg]
    unfold buildSidebar
    simp only [e]
    rw [mapRange_singleton env h]
    simp only [List.map_cons, List.map_nil]
    rw [(sortSlice_pair env h pageLess strictWeak_pageLess
      { d2 with Parent := "Guides".toList, Order := 1 }
      { d1 with Parent := "Guides".toList, Order := 2 } (by simp [pageLess])).2]
    rw [sortSlice_singleton env h]

/-- C9 at the concrete runtime, for the category built from two posts of
parent "Guides". -/
theorem pages_sorted_by_order_witness :
    goEnv.Lawful ∧
    ({ Name := "Guides".toList
       Pages := [plainPost "b" "Guides" 1, plainPost "a" "Guides" 2]
       Order := 1 } : Category) ∈
      (buildSidebar goEnv [plainPost "a" "Guides" 2, plainPost "b" "Guides" 1]).Categories ∧
    ([plainPost "b" "Guides" 1, plainPost "a" "Guides" 2].Pairwise
      (fun a b => a.Order ≤ b.Order)) :=
  ⟨goEnv_lawful, by decide,
    (pages_sorted_by_order goEnv goEnv_lawful
      [plainPost "a" "Guides" 2, plainPost "b" "Guides" 1]
      (plainPost "a" "" 0) (plainPost "b" "" 0)).1
      { Name := "Guides".toList
        Pages := [plainPost "b" "Guides" 1, plainPost "a" "Guides" 2]
        Order := 1 } (by decide)⟩

theorem buildSidebar_two (env : Env) (h : env.Lawful) (p q : BlogPost)
    (hp : trimSpace p.Parent ≠ []) (hq : trimSpace q.Parent ≠ [])
    (hne : p.Parent ≠ q.Parent)
    (hless : categoryLess env.unicodeLower
      { Name := q.Parent, Pages := [q], Order := q.Order }
      { Name := p.Parent, Pages := [p], Order := p.Order } = true) :
    (buildSidebar env [p, q]).Categories =
      [{ Name := q.Parent, Pages := [q], Order := q.Order },
       { Name := p.Parent, Pages := [p], Order := p.Order }] ∧
    (buildSidebar env [q, p]).Categories =
      [{ Name := q.Parent, Pages := [q], Order := q.Order },
       { Name := p.Parent, Pages := [p], Order := p.Order }] := by
  have hsw := strictWeak_categoryLess env.unicodeLower
  have e1 : groupPosts [p, q] = [{ Name := p.Parent, Pages := [p], Order := p.Order },
      { Name := q.Parent, Pages := [q], Order := q.Order }] := by
    simp [groupPosts, addPost, hp, hq, hne]
  have e2 : groupPosts [q, p] = [{ Name := q.Parent, Pages := [q], Order := q.Order },
      { Name := p.Parent, Pages := [p], Order := p.Order }] := by
    simp [groupPosts, addPost, hp, hq, Ne.symm hne]
  have key : ∀ m : List Category,
      m.Perm [{ Name := q.Parent, Pages := [q], Order := q.Order },
        { Name := p.Parent, Pages := [p], Order := p.Order }] →
      env.sortSlice Category (categoryLess env.unicodeLower) ((env.mapRange m).map
        (fun cat => { cat with Pages := env.sortSlice BlogPost pageLess cat.Pages })) =
      [{ Name := q.Parent, Pages := [q], Order := q.Order },
        { Name := p.Parent, Pages := [p], Order := p.Order }] := by
    intro m hm
    have hs := sortSlice_pair env h _ hsw _ _ hless
    rcases perm_pair ((h.range_perm m).trans hm) with e | e
    · rw [e]
      simp only [List.map_cons, List.map_nil, sortSlice_singleton env h]
      exact hs.1
    · rw [e]
      simp only [List.map_cons, List.map_nil, sortSlice_singleton env h]
      exact hs.2
  constructor
  · unfold buildSidebar
    simp only [e1]
    exact key _ (List.Perm.swap _ _ [])
  · unfold buildSidebar
    simp only [e2]
    exact key _ (List.Perm.refl _)

/-- C6: in the navigation tree built with any lawful runtime, of two categories
the earlier one has the smaller Order, or the same Order and a lower-cased
name that the later one's is not less than; the categories "zebra" and "Apple",
both of Order 1, come out as "Apple", "zebra" whichever is met first. -/
theorem categories_sorted (env : Env) (h : env.Lawful) (posts : List BlogPost)
    (d1 d2 : BlogPost) :
    (buildSidebar env posts).Categories.Pairwise (fun a b =>
      a.Order < b.Order ∨ (a.Order = b.Order ∧
        strLess (toLower env.unicodeLower b.Name) (toLower env.unicodeLower a.Name) = false)) ∧
    ((buildSidebar env [{ d1 with Parent := "zebra".toList, Order := 1 },
        { d2 with Parent := "Apple".toList, Order := 1 }]).Categories.map Category.Name =
      ["Apple".toList, "zebra".toList]) ∧
    ((buildSidebar env [{ d2 with Parent := "Apple".toList, Order := 1 },
        { d1 with Parent := "zebra".toList, Order := 1 }]).Categories.map Category.Name =
      ["Apple".toList, "zebra".toList]) := by
  refine ⟨?_, ?_⟩
  · refine (h.sort_sorted Category _ _ (strictWeak_categoryLess env.unicodeLower)).imp ?_
    intro a b hab
    unfold categoryLess at hab
    split_ifs at hab with he
    · exact Or.inr ⟨he.symm, hab⟩
    · left
      simp only [decide_eq_false_iff_not] at hab
      omega
  · have two := buildSidebar_two env h { d1 with Parent := "zebra".toList, Order := 1 }
      { d2 with Parent := "Apple".toList, Order := 1 }
      (show trimSpace "zebra".toList ≠ [] by decide)
      (show trimSpace "Apple".toList ≠ [] by decide)
      (show "zebra".toList ≠ "Apple".toList by decide) (by rfl)
    rw [two.1, two.2]
    exact ⟨rfl, rfl⟩

/-- C6 at the concrete runtime: the example of the two categories of Order 1. -/
theorem categories_sorted_witness :
    goEnv.Lawful ∧
    ((buildSidebar goEnv [plainPost "z" "zebra" 1, plainPost "a" "Apple" 1]).Categories.map
      Category.Name = ["Apple".toList, "zebra".toList]) :=
  ⟨goEnv_lawful,
    (categories_sorted goEnv goEnv_lawful [] (plainPost "z" "" 0) (plainPost "a" "" 0)).2.1⟩

/-- C10: the navigation tree built with any lawful runtime groups by Parent and
skips blank Parents: the category names are pairwise distinct, every page of
a category has that category's name as Parent and that Parent is not blank,
and the pages of all categories together are the posts with a Parent that is
not blank, each as often as it is given. -/
theorem grouped_by_parent (env : Env) (h : env.Lawful) (posts : List BlogPost) :
    ((buildSidebar env posts).Categories.map Category.Name).Nodup ∧
    (∀ c ∈ (buildSidebar env posts).Categories, ∀ p ∈ c.Pages,
      p.Parent = c.Name ∧ isBlank p.Parent = false) ∧
    ((buildSidebar env posts).Categories.flatMap Category.Pages).Perm
      (posts.filter (fun p => !isBlank p.Parent)) := by
  have inv := groupInv_groupPosts posts
  have hperm := buildSidebar_perm env h posts
  refine ⟨?_, ?_, ?_⟩
  · rw [(hperm.map Category.Name).nodup_iff, List.map_map]
    exact inv.nodup
  · intro c hc p hp
    obtain ⟨c0, h0, rfl⟩ := (mem_buildSidebar env h posts c).mp hc
    have hp0 : p ∈ c0.Pages := (h.sort_perm BlogPost pageLess c0.Pages).mem_iff.mp hp
    rw [inv.pages c0 h0, List.mem_filter] at hp0
    have := of_decide_eq_true hp0.2
    refine ⟨this.2, ?_⟩
    rw [Bool.eq_false_iff]
    exact fun hb => this.1 ((trimSpace_eq_nil_iff _).mpr hb)
  · refine (hperm.flatMap_right Category.Pages).trans ?_
    rw [List.flatMap_map]
    refine (List.Perm.flatMap_left _ (fun c _ => h.sort_perm BlogPost pageLess c.Pages)).trans ?_
    refine inv.all.trans ?_
    have e : (fun p : BlogPost => decide (trimSpace p.Parent ≠ [])) =
        (fun p => !isBlank p.Parent) := by
      funext p
      by_cases hb : isBlank p.Parent = true
      · simp [hb, (trimSpace_eq_nil_iff _).mpr hb]
      · have : trimSpace p.Parent ≠ [] := fun ht => hb ((trimSpace_eq_nil_iff _).mp ht)
        simp [hb, this]
    rw [e]

/-- C10 at the concrete runtime, for three posts one of which has a blank
Parent. -/
theorem grouped_by_parent_witness :
    goEnv.Lawful ∧
    ((buildSidebar goEnv [plainPost "a" "Guides" 2, plainPost "x" " " 0,
        plainPost "b" "Guides" 1]).Categories.flatMap Category.Pages).Perm
      ([plainPost "a" "Guides" 2, plainPost "x" " " 0, plainPost "b" "Guides" 1].filter
        (fun p => !isBlank p.Parent)) :=
  ⟨goEnv_lawful, (grouped_by_parent goEnv goEnv_lawful _).2.2⟩

theorem sortSlice_pages_sorted (env : Env) (h : env.Lawful) (l : List BlogPost) :
    (env.sortSlice BlogPost pageLess l).Pairwise (fun a b => a.Order ≤ b.Order) := by
  refine (h.sort_sorted BlogPost pageLess l strictWeak_pageLess).imp ?_
  intro a b hab
  simpa [pageLess] using hab

/-- C5, amended: building the tree from a rearrangement of the posts, with any
lawful runtime on either side, gives for each category a category of the same
name with the same Order, the same pages up to their arrangement and the same
sequence of page Orders; the page lists are equal when the Orders of the
category's pages are pairwise distinct. -/
theorem insertion_order_independent (env env' : Env) (h : env.Lawful) (h' : env'.Lawful)
    (posts posts' : List BlogPost) (hp : posts.Perm posts') :
    ∀ c ∈ (buildSidebar env posts).Categories,
      ∃ c' ∈ (buildSidebar env' posts').Categories,
        c'.Name = c.Name ∧ c'.Order = c.Order ∧ c'.Pages.Perm c.Pages ∧
        c'.Pages.map BlogPost.Order = c.Pages.map BlogPost.Order ∧
        ((c.Pages.map BlogPost.Order).Nodup → c'.Pages = c.Pages) := by
  intro c hc
  obtain ⟨c0, h0, rfl⟩ := (mem_buildSidebar env h posts c).mp hc
  have inv := groupInv_groupPosts posts
  have inv' := groupInv_groupPosts posts'
  -- a page of the category, to find the category on the other side
  obtain ⟨p, hpc, _⟩ := inv.order_mem c0 h0
  have hpc' := hpc
  rw [inv.pages c0 h0, List.mem_filter] at hpc'
  have hpp := of_decide_eq_true hpc'.2
  have hcov := inv'.covered p (hp.mem_iff.mp hpc'.1) hpp.1
  obtain ⟨c0', h0', hname⟩ := List.mem_map.mp hcov
  have hname' : c0'.Name = c0.Name := hname.trans hpp.2
  have hpages : c0'.Pages.Perm c0.Pages := by
    rw [inv.pages c0 h0, inv'.pages c0' h0', hname']
    exact (hp.filter _).symm
  have horder : c0'.Order = c0.Order := by
    obtain ⟨q, hq, hqo⟩ := inv.order_mem c0 h0
    obtain ⟨q', hq', hqo'⟩ := inv'.order_mem c0' h0'
    have l1 := inv'.order_le c0' h0' q (hpages.mem_iff.mpr hq)
    have l2 := inv.order_le c0 h0 q' (hpages.mem_iff.mp hq')
    omega
  have hsp : (env'.sortSlice BlogPost pageLess c0'.Pages).Perm
      (env.sortSlice BlogPost pageLess c0.Pages) :=
    ((h'.sort_perm _ _ _).trans hpages).trans (h.sort_perm _ _ _).symm
  have s := sortSlice_pages_sorted env h c0.Pages
  have s' := sortSlice_pages_sorted env' h' c0'.Pages
  refine ⟨{ c0' with Pages := env'.sortSlice BlogPost pageLess c0'.Pages },
    (mem_buildSidebar env' h' posts' _).mpr ⟨c0', h0', rfl⟩, hname', horder, hsp, ?_, ?_⟩
  · refine @List.Perm.eq_of_sorted Int (fun a b => a ≤ b) _ _ ?_ ?_ ?_ (hsp.map _)
    · intro a b _ _ hab hba
      omega
    · exact List.pairwise_map.mpr s'
    · exact List.pairwise_map.mpr s
  · intro hnd
    refine @List.Perm.eq_of_sorted BlogPost (fun a b => a.Order ≤ b.Order) _ _ ?_ s' s hsp
    intro a b ha hb hab hba
    exact List.inj_on_of_nodup_map hnd (hsp.mem_iff.mp ha) hb (by omega)

/-- C5, amended, at the concrete runtime, for two posts of parent "Guides" given
in either order. -/
theorem insertion_order_independent_witness :
    goEnv.Lawful ∧
    [plainPost "a" "Guides" 2, plainPost "b" "Guides" 1].Perm
      [plainPost "b" "Guides" 1, plainPost "a" "Guides" 2] ∧
    ∃ c' ∈ (buildSidebar goEnv [plainPost "b" "Guides" 1, plainPost "a" "Guides" 2]).Categories,
      c'.Name = "Guides".toList ∧ c'.Order = 1 ∧
      c'.Pages.Perm [plainPost "b" "Guides" 1, plainPost "a" "Guides" 2] ∧
      c'.Pages.map BlogPost.Order = [1, 2] ∧
      (([1, 2] : List Int).Nodup →
        c'.Pages = [plainPost "b" "Guides" 1, plainPost "a" "Guides" 2]) :=
  ⟨goEnv_lawful, List.Perm.swap _ _ [],
    insertion_order_independent goEnv goEnv goEnv_lawful goEnv_lawful
      [plainPost "a" "Guides" 2, plainPost "b" "Guides" 1]
      [plainPost "b" "Guides" 1, plainPost "a" "Guides" 2] (List.Perm.swap _ _ [])
      { Name := "Guides".toList
        Pages := [plainPost "b" "Guides" 1, plainPost "a" "Guides" 2]
        Order := 1 } (by decide)⟩

/-- C5 as stated fails: with Go's insertion sort, two posts of the same parent
and the same Order stay in the order in which they are given, so the category
built from the rearranged list has another page list. -/
theorem insertion_order_changes_tied_pages :
    [plainPost "a" "Guides" 1, plainPost "b" "Guides" 1].Perm
      [plainPost "b" "Guides" 1, plainPost "a" "Guides" 1] ∧
    (buildSidebar goEnv [plainPost "a" "Guides" 1, plainPost "b" "Guides" 1]).Categories =
      [{ Name := "Guides".toList
         Pages := [plainPost "a" "Guides" 1, plainPost "b" "Guides" 1], Order := 1 }] ∧
    (buildSidebar goEnv [plainPost "b" "Guides" 1, plainPost "a" "Guides" 1]).Categories =
      [{ Name := "Guides".toList
         Pages := [plainPost "b" "Guides" 1, plainPost "a" "Guides" 1], Order := 1 }] ∧
    ¬ (∀ c ∈ (buildSidebar goEnv
          [plainPost "a" "Guides" 1, plainPost "b" "Guides" 1]).Categories,
        ∃ c' ∈ (buildSidebar goEnv
          [plainPost "b" "Guides" 1, plainPost "a" "Guides" 1]).Categories,
          c'.Name = c.Name ∧ c'.Order = c.Order ∧ c'.Pages = c.Pages) :=
  ⟨List.Perm.swap _ _ [], by decide, by decide, by decide⟩

/-! ## Anchors -/

theorem replaceAll_single (s : Str) (a : Char) (new : Str) :
    replaceAll s [a] new = s.flatMap (fun c => if c = a then new else [c]) := by
  unfold replaceAll
  induction s with
  | nil => rfl
  | cons c cs ih =>
    by_cases h : c = a
    · subst h
      simp [replaceAllAux, ih, List.isPrefixOf]
    · have h' : ¬ a = c := fun e => h e.symm
      simp [replaceAllAux, ih, List.isPrefixOf, h, h']

theorem isAnchorChar_iff (c : Char) : isAnchorChar c = true ↔ c ∈ anchorAlphabet := by
  constructor
  · intro h
    have hc : c = Char.ofNat c.toNat := (Char.ofNat_toNat c).symm
    simp only [isAnchorChar, Bool.or_eq_true, Bool.and_eq_true, decide_eq_true_eq,
      beq_iff_eq] at h
    rw [hc]
    generalize c.toNat = n at h
    have hn : n ≤ 122 := by omega
    interval_cases n <;> first | omega | decide
  · revert c
    decide

/-- C8: the anchor of a heading is the heading lower-cased, with every space
turned into a hyphen and every character outside `[a-z0-9-]` deleted; it holds
characters of `[a-z0-9-]` only; "Step 1: Go!" gives "step-1-go". -/
theorem sanitizeHeaderForID_spec (table : Char → Char) (h : Str) :
    sanitizeHeaderForID table h = anchorSpec table h ∧
    (∀ c ∈ sanitizeHeaderForID table h, c ∈ anchorAlphabet) ∧
    sanitizeHeaderForID table "Step 1: Go!".toList = "step-1-go".toList := by
  refine ⟨?_, ?_, by rfl⟩
  · unfold sanitizeHeaderForID anchorSpec toLower
    have e1 : " ".toList = [' '] := rfl
    simp only [e1, replaceAll_single]
    have e2 : ∀ l : Str, l.flatMap (fun c => if c = ' ' then "-".toList else [c]) =
        l.map (fun c => if c = ' ' then '-' else c) := by
      intro l
      induction l with
      | nil => rfl
      | cons c cs ih =>
        simp only [List.flatMap_cons, List.map_cons, ih]
        split_ifs <;> rfl
    rw [e2]
    refine List.filter_congr ?_
    intro c _
    by_cases hc : c ∈ anchorAlphabet
    · simp [hc, (isAnchorChar_iff c).mpr hc]
    · have : isAnchorChar c = false := by
        rw [Bool.eq_false_iff]
        exact fun hh => hc ((isAnchorChar_iff c).mp hh)
      simp [hc, this]
  · intro c hc
    unfold sanitizeHeaderForID at hc
    exact (isAnchorChar_iff c).mp (List.mem_filter.mp hc).2

/-! ## `strconv.Atoi` and the Order -/

theorem parseDigits_snoc (a : Nat) (s : Str) (c : Char) :
    parseDigits a (s ++ [c]) =
      (parseDigits a s).bind (fun n => (digitValue c).map (fun d => n * 10 + d)) := by
  induction s generalizing a with
  | nil =>
    simp only [List.nil_append, parseDigits, digitValue, Option.some_bind]
    split_ifs <;> rfl
  | cons x xs ih =>
    simp only [List.cons_append, parseDigits]
    split_ifs
    · exact ih _
    · rfl

theorem DecimalNat.parseDigits {s : Str} {n : Nat} (h : DecimalNat s n) :
    parseDigits 0 s = some n := by
  induction h with
  | digit c d hd =>
    have := parseDigits_snoc 0 [] c
    simp only [List.nil_append] at this
    rw [this, hd]
    simp [Blog.parseDigits]
  | snoc s n c d _ hd ih =>
    rw [parseDigits_snoc, ih, hd]
    simp [Nat.mul_comm]

theorem DecimalNat.ne_nil {s : Str} {n : Nat} (h : DecimalNat s n) : s ≠ [] := by
  cases h <;> simp

theorem decimalNat_of_parseDigits (s : Str) (n : Nat) (hs : s ≠ [])
    (h : parseDigits 0 s = some n) : DecimalNat s n := by
  induction s using List.reverseRecOn generalizing n with
  | nil => exact absurd rfl hs
  | append_singleton l c ih =>
    rw [parseDigits_snoc] at h
    cases hl : parseDigits 0 l with
    | none => rw [hl] at h; cases h
    | some m =>
      rw [hl] at h
      cases hd : digitValue c with
      | none => rw [hd] at h; cases h
      | some d =>
        rw [hd] at h
        simp only [Option.some_bind, Option.map_some', Option.some.injEq] at h
        subst h
        by_cases hnil : l = []
        · subst hnil
          simp only [parseDigits, Option.some.injEq] at hl
          subst hl
          simpa using DecimalNat.digit c d hd
        · have := DecimalNat.snoc l m c d (ih m hnil hl) hd
          rwa [Nat.mul_comm] at this

theorem DecimalNat.head_digit {s : Str} {n : Nat} (h : DecimalNat s n) :
    ∃ c t, s = c :: t ∧ (digitValue c).isSome = true := by
  induction h with
  | digit c d hd => exact ⟨c, [], rfl, by simp [hd]⟩
  | snoc s n c d _ _ ih =>
    obtain ⟨c0, t, e, hc⟩ := ih
    exact ⟨c0, t ++ [c], by simp [e], hc⟩

theorem atoi_minus (r : Str) : atoi ('-' :: r) =
    if r.isEmpty then none else match parseDigits 0 r with
      | none => none
      | some un => if un > 2 ^ (intSize - 1) then none else some (-(un : Int)) := by
  simp [atoi]

theorem atoi_plus (r : Str) : atoi ('+' :: r) =
    if r.isEmpty then none else match parseDigits 0 r with
      | none => none
      | some un => if un ≥ 2 ^ (intSize - 1) then none else some (un : Int) := by
  simp [atoi]

theorem atoi_unsigned (s : Str) (h : ∀ c t, s = c :: t → c ≠ '-' ∧ c ≠ '+') : atoi s =
    if s.isEmpty then none else match parseDigits 0 s with
      | none => none
      | some un => if un ≥ 2 ^ (intSize - 1) then none else some (un : Int) := by
  cases s with
  | nil => simp [atoi]
  | cons c t =>
    obtain ⟨h1, h2⟩ := h c t rfl
    unfold atoi
    split <;> split <;> simp_all

theorem digitValue_not_sign (c : Char) (h : (digitValue c).isSome = true) :
    c ≠ '-' ∧ c ≠ '+' := by
  constructor <;> (rintro rfl; revert h; decide)

theorem atoi_of_decimalInt (s : Str) (n : Int) (h : DecimalInt s n) :
    atoi s = if -(2 ^ 63 : Int) ≤ n ∧ n < 2 ^ 63 then some n else none := by
  cases h with
  | unsigned _ m hm =>
    have hu := atoi_unsigned s (fun c t e => by
      obtain ⟨c0, t0, e0, hc⟩ := hm.head_digit
      rw [e] at e0
      cases e0
      exact digitValue_not_sign c hc)
    have hne : s.isEmpty = false := by
      cases s with
      | nil => exact absurd rfl hm.ne_nil
      | cons _ _ => rfl
    rw [hu, hne, hm.parseDigits]
    simp only [intSize, Bool.false_eq_true, if_false]
    split_ifs with a b b <;> first | rfl | (exfalso; omega)
  | plus r m hm =>
    have hne : r.isEmpty = false := by
      cases r with
      | nil => exact absurd rfl hm.ne_nil
      | cons _ _ => rfl
    rw [atoi_plus, hne, hm.parseDigits]
    simp only [intSize, Bool.false_eq_true, if_false]
    split_ifs with a b b <;> first | rfl | (exfalso; omega)
  | minus r m hm =>
    have hne : r.isEmpty = false := by
      cases r with
      | nil => exact absurd rfl hm.ne_nil
      | cons _ _ => rfl
    rw [atoi_minus, hne, hm.parseDigits]
    simp only [intSize, Bool.false_eq_true, if_false]
    split_ifs with a b b <;> first | rfl | (exfalso; omega)

theorem decimalInt_of_atoi (s : Str) (v : Int) (h : atoi s = some v) : ∃ n, DecimalInt s n := by
  have key : ∀ r : Str, (if r.isEmpty then none else
      match parseDigits 0 r with
      | none => none
      | some un => if un ≥ 2 ^ (intSize - 1) then none else some (un : Int)) = some v →
      ∃ m, DecimalNat r m := by
    intro r hr
    cases r with
    | nil => simp at hr
    | cons c t =>
      cases hp : parseDigits 0 (c :: t) with
      | none => simp [hp] at hr
      | some un => exact ⟨un, decimalNat_of_parseDigits _ _ (by simp) hp⟩
  cases s with
  | nil => simp [atoi] at h
  | cons c t =>
    by_cases hm : c = '-'
    · subst hm
      rw [atoi_minus] at h
      cases t with
      | nil => simp at h
      | cons c2 t2 =>
        cases hp : parseDigits 0 (c2 :: t2) with
        | none => simp [hp] at h
        | some un =>
          exact ⟨_, DecimalInt.minus _ un (decimalNat_of_parseDigits _ _ (by simp) hp)⟩
    · by_cases hpl : c = '+'
      · subst hpl
        rw [atoi_plus] at h
        obtain ⟨m, hm⟩ := key t h
        exact ⟨_, DecimalInt.plus _ m hm⟩
      · rw [atoi_unsigned _ (fun c' t' e => by cases e; exact ⟨hm, hpl⟩)] at h
        obtain ⟨m, hm⟩ := key _ h
        exact ⟨_, DecimalInt.unsigned _ m hm⟩

theorem parseMetadata_order (metadata : Str) :
    (parseMetadata metadata).order = (atoi (orderValue metadata)).getD 9999 := by
  unfold parseMetadata orderValue
  simp only
  cases atoi (trimSpace (metaDataMap (findAllMeta metadata) "Order".toList)) <;> rfl

/-! ## The `FindAll` loop, line by line -/

theorem findAllAux_pass_line {β : Type} (matchAt : Str → Option (β × Nat)) (T : Str)
    (cs : Str) (hcs : '\n' ∉ cs) (k : Nat) (b : Bool) (hk : k ≤ cs.length)
    (hb : k = 0 → b = false) :
    findAllAux matchAt k b (cs ++ '\n' :: T) = findAllAux matchAt 0 true T := by
  induction cs generalizing k b with
  | nil =>
    have hk0 : k = 0 := by simpa using hk
    subst hk0
    rw [hb rfl]
    simp [findAllAux]
  | cons c cs ih =>
    have hc : (c == '\n') = false := by
      rw [beq_eq_false_iff_ne]
      exact fun e => hcs (e ▸ List.mem_cons_self _ _)
    have hcs' : '\n' ∉ cs := fun h => hcs (List.mem_cons_of_mem _ h)
    cases k with
    | zero =>
      rw [hb rfl]
      simp only [List.cons_append, findAllAux, Bool.false_eq_true, if_false, hc]
      exact ih hcs' 0 false (Nat.zero_le _) (fun _ => rfl)
    | succ k =>
      simp only [List.cons_append, findAllAux, hc]
      exact ih hcs' k false (by simpa using hk) (fun _ => rfl)

theorem findAllAux_pass_end {β : Type} (matchAt : Str → Option (β × Nat))
    (cs : Str) (hcs : '\n' ∉ cs) (k : Nat) (b : Bool) (hb : k = 0 → b = false) :
    findAllAux matchAt k b cs = [] := by
  induction cs generalizing k b with
  | nil => cases k <;> rfl
  | cons c cs ih =>
    have hc : (c == '\n') = false := by
      rw [beq_eq_false_iff_ne]
      exact fun e => hcs (e ▸ List.mem_cons_self _ _)
    have hcs' : '\n' ∉ cs := fun h => hcs (List.mem_cons_of_mem _ h)
    cases k with
    | zero =>
      rw [hb rfl]
      simp only [findAllAux, Bool.false_eq_true, if_false, hc]
      exact ih hcs' 0 false (fun _ => rfl)
    | succ k =>
      simp only [findAllAux, hc]
      exact ih hcs' k false (fun _ => rfl)

/-- When every attempt at the start of a line `l` gives what `lineMatch l`
says and a match ends with its line, whatever follows the line, the loop
returns the matches of the lines in order. -/
theorem findAllAux_lines {β : Type} (matchAt : Str → Option (β × Nat))
    (lineMatch : Str → Option β)
    (ls : List Str) (hnl : ∀ l ∈ ls, '\n' ∉ l)
    (hnil : lineMatch [] = none)
    (hlocal : ∀ l ∈ ls, ∀ tail : Str, (tail = [] ∨ ∃ rest, tail = '\n' :: rest) →
      matchAt (l ++ tail) = (lineMatch l).map (fun found => (found, l.length))) :
    findAllAux matchAt 0 true (joinLines ls) = ls.filterMap lineMatch := by
  induction ls with
  | nil => rfl
  | cons l rest ih =>
    have hl : '\n' ∉ l := hnl l (List.mem_cons_self _ _)
    have ih' := ih (fun x hx => hnl x (List.mem_cons_of_mem _ hx))
      (fun x hx => hlocal x (List.mem_cons_of_mem _ hx))
    cases rest with
    | nil =>
      simp only [joinLines]
      cases l with
      | nil => simp [findAllAux, hnil]
      | cons c cs =>
        have hm := hlocal (c :: cs) (List.mem_cons_self _ _) [] (Or.inl rfl)
        rw [List.append_nil] at hm
        have hc : (c == '\n') = false := by
          rw [beq_eq_false_iff_ne]
          exact fun e => hl (e ▸ List.mem_cons_self _ _)
        have hcs' : '\n' ∉ cs := fun h => hl (List.mem_cons_of_mem _ h)
        simp only [findAllAux, if_true, hm, hc]
        cases hlm : lineMatch (c :: cs) with
        | none =>
          simp only [Option.map_none', List.filterMap_cons, hlm, List.filterMap_nil]
          exact findAllAux_pass_end matchAt cs hcs' 0 false (fun _ => rfl)
        | some found =>
          simp only [Option.map_some', List.filterMap_cons, hlm, List.filterMap_nil,
            List.length_cons, Nat.add_sub_cancel]
          rw [findAllAux_pass_end matchAt cs hcs' cs.length false (fun _ => rfl)]
    | cons l2 rest2 =>
      have e : joinLines (l :: l2 :: rest2) = l ++ '\n' :: joinLines (l2 :: rest2) := rfl
      rw [e]
      cases l with
      | nil =>
        have hm := hlocal [] (List.mem_cons_self _ _) ('\n' :: joinLines (l2 :: rest2))
          (Or.inr ⟨_, rfl⟩)
        rw [hnil] at hm
        simp only [List.nil_append, Option.map_none'] at hm
        simp only [List.nil_append, findAllAux, if_true, hm, List.filterMap_cons, hnil]
        exact ih'
      | cons c cs =>
        have hm := hlocal (c :: cs) (List.mem_cons_self _ _) ('\n' :: joinLines (l2 :: rest2))
          (Or.inr ⟨_, rfl⟩)
        have hc : (c == '\n') = false := by
          rw [beq_eq_false_iff_ne]
          exact fun e => hl (e ▸ List.mem_cons_self _ _)
        have hcs' : '\n' ∉ cs := fun h => hl (List.mem_cons_of_mem _ h)
        rw [List.cons_append] at hm ⊢
        simp only [findAllAux, if_true, hm, hc]
        cases hlm : lineMatch (c :: cs) with
        | none =>
          simp only [Option.map_none', List.filterMap_cons, hlm]
          rw [findAllAux_pass_line matchAt _ cs hcs' 0 false (Nat.zero_le _) (fun _ => rfl)]
          exact ih'
        | some found =>
          simp only [Option.map_some', List.filterMap_cons, hlm, List.length_cons,
            Nat.add_sub_cancel]
          rw [findAllAux_pass_line matchAt _ cs hcs' cs.length false (Nat.le_refl _)
            (fun _ => rfl)]
          rw [ih']
          simp only [List.filterMap_cons]

theorem takeWhile_dropWhile_append_stop (p : Char → Bool) (a b : Str)
    (hb : b = [] ∨ ∃ x t, b = x :: t ∧ p x = false) :
    (a ++ b).takeWhile p = a.takeWhile p ∧ (a ++ b).dropWhile p = a.dropWhile p ++ b := by
  induction a with
  | nil =>
    rcases hb with rfl | ⟨x, t, rfl, hx⟩
    · simp
    · simp [List.takeWhile, List.dropWhile, hx]
  | cons c cs ih =>
    by_cases hc : p c = true
    · simp [List.takeWhile, List.dropWhile, hc, ih.1, ih.2]
    · have hc' : p c = false := by simpa using hc
      simp [List.takeWhile, List.dropWhile, hc']

theorem takeWhile_dropWhile_append_of_mem (p : Char → Bool) (a b : Str)
    (ha : a.dropWhile p ≠ []) :
    (a ++ b).takeWhile p = a.takeWhile p ∧ (a ++ b).dropWhile p = a.dropWhile p ++ b := by
  induction a with
  | nil => exact absurd rfl ha
  | cons c cs ih =>
    by_cases hc : p c = true
    · have ha' : cs.dropWhile p ≠ [] := by simpa [List.dropWhile, hc] using ha
      simp [List.takeWhile, List.dropWhile, hc, (ih ha').1, (ih ha').2]
    · have hc' : p c = false := by simpa using hc
      simp [List.takeWhile, List.dropWhile, hc']

theorem takeWhile_isDot_line (a tail : Str) (ha : '\n' ∉ a)
    (htail : tail = [] ∨ ∃ rest, tail = '\n' :: rest) :
    (a ++ tail).takeWhile isDot = a := by
  have h1 := (takeWhile_dropWhile_append_stop isDot a tail (by
    rcases htail with h | ⟨rest, h⟩
    · exact Or.inl h
    · exact Or.inr ⟨'\n', rest, h, by decide⟩)).1
  rw [h1, List.takeWhile_eq_self_iff]
  intro c hc
  simp only [isDot, bne_iff_ne, ne_eq]
  exact fun e => ha (e ▸ hc)

theorem length_takeWhile_add_dropWhile (p : Char → Bool) (a : Str) :
    (a.takeWhile p).length + (a.dropWhile p).length = a.length := by
  rw [← List.length_append, List.takeWhile_append_dropWhile]

theorem matchHeaderAt_line (l tail : Str) (hl : '\n' ∉ l)
    (hgood : ¬ ∃ r, l = '#' :: '#' :: r ∧ ∀ c ∈ r, isReSpace c = true)
    (htail : tail = [] ∨ ∃ rest, tail = '\n' :: rest) :
    matchHeaderAt (l ++ tail) = (headerOfLine l).map (fun found => (found, l.length)) := by
  have htail0 : ∀ t, tail = '#' :: t → False := by
    intro t ht
    rcases htail with h | ⟨rest, h⟩
    · rw [h] at ht; cases ht
    · rw [h] at ht; cases ht
  match l, hl, hgood with
  | [], _, _ =>
    cases tail with
    | nil => rfl
    | cons x t =>
      have hx : x ≠ '#' := fun e => htail0 t (by rw [e])
      simp only [List.nil_append, headerOfLine, Option.map_none']
      unfold matchHeaderAt
      split
      · rename_i r heq
        cases heq
        exact absurd rfl hx
      · rfl
  | [a], _, _ =>
    simp only [headerOfLine, Option.map_none']
    unfold matchHeaderAt
    split
    · rename_i r heq
      simp only [List.singleton_append, List.cons.injEq] at heq
      exact (htail0 r heq.2).elim
    · rfl
  | [a, b], _, hgood =>
    have hab : ¬ (a = '#' ∧ b = '#') := fun h => hgood ⟨[], by rw [h.1, h.2], by simp⟩
    have e1 : headerOfLine [a, b] = none := by
      unfold headerOfLine
      split
      · rename_i heq; cases heq
      · rfl
    rw [e1]
    simp only [Option.map_none']
    unfold matchHeaderAt
    split
    · rename_i r heq
      simp only [List.cons_append, List.cons.injEq] at heq
      exact absurd ⟨heq.1, heq.2.1⟩ hab
    · rfl
  | a :: b :: c :: r, hl, hgood =>
    by_cases hab : a = '#' ∧ b = '#'
    · obtain ⟨rfl, rfl⟩ := hab
      have hcr : '\n' ∉ c :: r := fun h =>
        hl (List.mem_cons_of_mem _ (List.mem_cons_of_mem _ h))
      have hdrop : (c :: r).dropWhile isReSpace ≠ [] := by
        intro h
        exact hgood ⟨c :: r, rfl, List.dropWhile_eq_nil_iff.mp h⟩
      have ht := takeWhile_dropWhile_append_of_mem isReSpace (c :: r) tail hdrop
      have e0 : '#' :: '#' :: c :: r ++ tail = '#' :: '#' :: ((c :: r) ++ tail) := rfl
      rw [e0]
      simp only [matchHeaderAt, headerOfLine, ht.1, ht.2]
      by_cases hc : isReSpace c = true
      · have hval : ((c :: r).dropWhile isReSpace ++ tail).takeWhile isDot =
            (c :: r).dropWhile isReSpace :=
          takeWhile_isDot_line _ tail
            (fun h => hcr ((List.dropWhile_sublist _).subset h)) htail
        have hlen := length_takeWhile_add_dropWhile isReSpace (c :: r)
        have hne : ((c :: r).takeWhile isReSpace).isEmpty = false := by
          simp [List.takeWhile, hc]
        rw [hval, hne]
        simp only [Bool.false_eq_true, if_false, hc, if_true, Option.map_some',
          Option.some.injEq, Prod.mk.injEq, true_and, List.length_cons] at hlen ⊢
        omega
      · have hc' : isReSpace c = false := by simpa using hc
        simp [List.takeWhile, hc']
    · have e1 : headerOfLine (a :: b :: c :: r) = none := by
        unfold headerOfLine
        split
        · rename_i heq
          simp only [List.cons.injEq] at heq
          exact absurd ⟨heq.1, heq.2.1⟩ hab
        · rfl
      rw [e1]
      simp only [Option.map_none']
      unfold matchHeaderAt
      split
      · rename_i r' heq
        simp only [List.cons_append, List.cons.injEq] at heq
        exact absurd ⟨heq.1, heq.2.1⟩ hab
      · rfl

theorem matchMetaAt_line (l tail : Str) (hl : '\n' ∉ l)
    (hgood : ∀ key, metaOfLine l ≠ some (key, []))
    (htail : tail = [] ∨ ∃ rest, tail = '\n' :: rest) :
    matchMetaAt (l ++ tail) = (metaOfLine l).map (fun found => (found, l.length)) := by
  have hw := takeWhile_dropWhile_append_stop isWord l tail (by
    rcases htail with h | ⟨rest, h⟩
    · exact Or.inl h
    · exact Or.inr ⟨'\n', rest, h, by decide⟩)
  have hsplit := List.takeWhile_append_dropWhile isWord l
  unfold matchMetaAt metaOfLine
  simp only [hw.1, hw.2]
  cases hd : l.dropWhile isWord with
  | nil =>
    rcases htail with h | ⟨rest, h⟩
    · rw [h]; rfl
    · rw [h]; rfl
  | cons x r0 =>
    by_cases hx : x = ':'
    · subst hx
      simp only [List.cons_append]
      by_cases hk : (l.takeWhile isWord).isEmpty = true
      · simp [hk]
      · have hk' : (l.takeWhile isWord).isEmpty = false := by simpa using hk
        simp only [hk', Bool.false_eq_true, if_false, Option.map_some']
        have hr0 : r0.dropWhile isReSpace ≠ [] := by
          intro h
          have := hgood (l.takeWhile isWord)
          unfold metaOfLine at this
          simp only [hd, hk', Bool.false_eq_true, if_false, h] at this
          exact this rfl
        have hs := takeWhile_dropWhile_append_of_mem isReSpace r0 tail hr0
        have hlr : '\n' ∉ r0 := by
          intro h
          apply hl
          rw [← hsplit, hd]
          exact List.mem_append_right _ (List.mem_cons_of_mem _ h)
        have hval : (r0.dropWhile isReSpace ++ tail).takeWhile isDot =
            r0.dropWhile isReSpace :=
          takeWhile_isDot_line _ tail
            (fun h => hlr ((List.dropWhile_sublist _).subset h)) htail
        rw [hs.1, hs.2]
        cases hdr : r0.dropWhile isReSpace with
        | nil => exact absurd hdr hr0
        | cons c t =>
          rw [hdr] at hval
          simp only [List.cons_append] at hval ⊢
          rw [hval]
          have hlen1 := length_takeWhile_add_dropWhile isReSpace r0
          have hlen2 := length_takeWhile_add_dropWhile isWord l
          rw [hd] at hlen2
          rw [hdr] at hlen1
          simp only [List.length_cons] at hlen1 hlen2 ⊢
          have : (l.takeWhile isWord).length + 1 + (r0.takeWhile isReSpace).length +
              (t.length + 1) = l.length := by omega
          rw [this]
    · have e1 : (match x :: r0 ++ tail with
          | ':' :: r =>
            if (l.takeWhile isWord).isEmpty = true then none
            else
              match r.dropWhile isReSpace with
              | c :: t => some ((l.takeWhile isWord, (c :: t).takeWhile isDot),
                  (l.takeWhile isWord).length + 1 + (r.takeWhile isReSpace).length +
                    ((c :: t).takeWhile isDot).length)
              | [] =>
                match (r.takeWhile isReSpace).reverse.dropWhile (fun c => !isDot c) with
                | w :: before => some ((l.takeWhile isWord, [w]),
                    (l.takeWhile isWord).length + 1 + (before.length + 1))
                | [] => none
          | _ => none) = none := by
        split
        · rename_i r heq
          simp only [List.cons_append, List.cons.injEq] at heq
          exact absurd heq.1 hx
        · rfl
      have e2 : (match x :: r0 with
          | ':' :: r => if (l.takeWhile isWord).isEmpty = true then none
            else some (l.takeWhile isWord, r.dropWhile isReSpace)
          | _ => none) = none := by
        split
        · rename_i r heq
          simp only [List.cons.injEq] at heq
          exact absurd heq.1 hx
        · rfl
      rw [e1, e2]
      rfl

/-! ## Metadata fields -/

theorem findAllMeta_lines (ls : List Str) (hnl : ∀ l ∈ ls, '\n' ∉ l)
    (hgood : ∀ l ∈ ls, ∀ key, metaOfLine l ≠ some (key, [])) :
    findAllMeta (joinLines ls) = ls.filterMap metaOfLine :=
  findAllAux_lines matchMetaAt metaOfLine ls hnl rfl
    (fun l hl tail htail => matchMetaAt_line l tail (hnl l hl) (hgood l hl) htail)

theorem metaOfLine_some (l key v : Str) (h : metaOfLine l = some (key, v)) :
    ∃ r, l = key ++ ':' :: r ∧ key ≠ [] ∧ (∀ c ∈ key, isWord c = true) ∧
      v = r.dropWhile isReSpace := by
  unfold metaOfLine at h
  have hsplit := List.takeWhile_append_dropWhile isWord l
  cases hd : l.dropWhile isWord with
  | nil => rw [hd] at h; cases h
  | cons x r =>
    rw [hd] at h
    by_cases hx : x = ':'
    · subst hx
      simp only at h
      split_ifs at h with hk
      simp only [Option.some.injEq, Prod.mk.injEq] at h
      refine ⟨r, ?_, ?_, ?_, h.2.symm⟩
      · rw [← h.1, ← hd, hsplit]
      · rw [← h.1]
        intro e
        rw [e] at hk
        exact hk rfl
      · rw [← h.1]
        intro c hc
        exact (List.mem_takeWhile_imp hc)
    · exfalso
      revert h
      split
      · rename_i r' heq
        simp only [List.cons.injEq] at heq
        exact absurd heq.1 hx
      · intro h; cases h

theorem metaOfLine_key_line (key rest : Str) (hk : key ≠ [])
    (hw : ∀ c ∈ key, isWord c = true) :
    metaOfLine (key ++ ':' :: rest) = some (key, rest.dropWhile isReSpace) := by
  have h := takeWhile_dropWhile_append_stop isWord key (':' :: rest)
    (Or.inr ⟨':', rest, rfl, by decide⟩)
  have h1 : key.takeWhile isWord = key := List.takeWhile_eq_self_iff.mpr hw
  have h2 : key.dropWhile isWord = [] := List.dropWhile_eq_nil_iff.mpr hw
  unfold metaOfLine
  rw [h.1, h.2, h1, h2]
  have : key.isEmpty = false := by
    cases key with
    | nil => exact absurd rfl hk
    | cons _ _ => rfl
  simp [this]

theorem not_blankValued_good (l : Str) (h : ¬ blankValued l) :
    ∀ key, metaOfLine l ≠ some (key, []) := by
  intro key hm
  obtain ⟨r, e, hk, hw, hv⟩ := metaOfLine_some l key [] hm
  exact h ⟨key, r, e, hk, hw, List.dropWhile_eq_nil_iff.mp hv.symm⟩

theorem metaDataMap_append_singleton (found : List (Str × Str)) (key k v : Str) :
    metaDataMap (found ++ [(k, v)]) key = if k = key then v else metaDataMap found key := by
  simp [metaDataMap, List.foldl_append]

theorem metaDataMap_append_of_not_mem (a b : List (Str × Str)) (key : Str)
    (h : ∀ m ∈ b, m.1 ≠ key) : metaDataMap (a ++ b) key = metaDataMap a key := by
  induction b using List.reverseRecOn with
  | nil => simp
  | append_singleton l m ih =>
    rw [← List.append_assoc, metaDataMap_append_singleton]
    have hm : m.1 ≠ key := h m (by simp)
    rw [if_neg hm]
    exact ih (fun x hx => h x (by simp [hx]))

theorem metaDataMap_absent (found : List (Str × Str)) (key : Str)
    (h : ∀ m ∈ found, m.1 ≠ key) : metaDataMap found key = [] := by
  have := metaDataMap_append_of_not_mem [] found key h
  simpa [metaDataMap] using this

theorem parseMarkdownFile_of_first (env : Env) (pre post : Str)
    (hfirst : ¬ "---".toList <:+: pre ++ "--".toList) :
    parseMarkdownFile env (pre ++ "---".toList ++ post) =
      .ok { Title := (parseMetadata (replaceAll pre "\r".toList [])).title
            Slug := (parseMetadata (replaceAll pre "\r".toList [])).slug
            Parent := (parseMetadata (replaceAll pre "\r".toList [])).parent
            Description := (parseMetadata (replaceAll pre "\r".toList [])).description
            Content := env.mdToHTML (replaceAll post "\r".toList [])
            Headers := extractHeaders (replaceAll post "\r".toList [])
            Order := (parseMetadata (replaceAll pre "\r".toList [])).order
            MetaDescription := (parseMetadata (replaceAll pre "\r".toList [])).metaDescription
            MetaPropertyTitle :=
              (parseMetadata (replaceAll pre "\r".toList [])).metaPropertyTitle
            MetaPropertyDescription :=
              (parseMetadata (replaceAll pre "\r".toList [])).metaPropertyDescription
            MetaOgURL := (parseMetadata (replaceAll pre "\r".toList [])).metaOgURL } := by
  have hs := splitN2_of_first "---".toList pre post (by decide) hfirst
  unfold parseMarkdownFile
  simp only [hs]
  rfl

theorem recognizedFields_key (key : Str) (field : BlogPost → Str)
    (h : (key, field) ∈ recognizedFields) :
    key ≠ [] ∧ (∀ c ∈ key, isWord c = true) := by
  simp only [recognizedFields, List.mem_cons, Prod.mk.injEq, List.mem_singleton,
    List.not_mem_nil, or_false] at h
  rcases h with h | h | h | h | h | h | h | h <;> (rw [h.1]; decide)

theorem recognizedFields_read (env : Env) (metadata mdContent : Str) (key : Str)
    (field : BlogPost → Str) (h : (key, field) ∈ recognizedFields) :
    field { Title := (parseMetadata metadata).title
            Slug := (parseMetadata metadata).slug
            Parent := (parseMetadata metadata).parent
            Description := (parseMetadata metadata).description
            Content := env.mdToHTML mdContent
            Headers := extractHeaders mdContent
            Order := (parseMetadata metadata).order
            MetaDescription := (parseMetadata metadata).metaDescription
            MetaPropertyTitle := (parseMetadata metadata).metaPropertyTitle
            MetaPropertyDescription := (parseMetadata metadata).metaPropertyDescription
            MetaOgURL := (parseMetadata metadata).metaOgURL } =
      metaDataMap (findAllMeta metadata) key := by
  simp only [recognizedFields, List.mem_cons, Prod.mk.injEq, List.mem_singleton,
    List.not_mem_nil, or_false] at h
  rcases h with h | h | h | h | h | h | h | h <;> (rw [h.1, h.2]; rfl)

theorem blankValued_iff (l : Str) :
    blankValued l ↔ (metaOfLine l).map Prod.snd = some [] := by
  constructor
  · rintro ⟨k, r, rfl, hk, hw, hr⟩
    rw [metaOfLine_key_line k r hk hw, List.dropWhile_eq_nil_iff.mpr hr]
    rfl
  · intro h
    cases hm : metaOfLine l with
    | none => rw [hm] at h; cases h
    | some kv =>
      rw [hm] at h
      simp only [Option.map_some', Option.some.injEq] at h
      obtain ⟨r, e, hk, hw, hv⟩ := metaOfLine_some l kv.1 kv.2 hm
      rw [h] at hv
      exact ⟨kv.1, r, e, hk, hw, List.dropWhile_eq_nil_iff.mp hv.symm⟩

/-- C2, amended: take a content with the delimiter, `pre` being the text before
the first delimiter, and let the lines of its metadata block (`pre` without
carriage returns) have no key with a blank value.  For a recognized key that
the block has as a line `key:rest`, the last such line, the matching field of
the parsed document is `rest` without its leading white space; trailing white
space is kept. -/
theorem metadata_field_of_last_line (env : Env) (pre post : Str)
    (before after : List Str) (key rest : Str) (field : BlogPost → Str)
    (hfirst : ¬ "---".toList <:+: pre ++ "--".toList)
    (hlines : replaceAll pre "\r".toList [] =
      joinLines (before ++ (key ++ ':' :: rest) :: after))
    (hnl : ∀ l ∈ before ++ (key ++ ':' :: rest) :: after, '\n' ∉ l)
    (hgood : ∀ l ∈ before ++ (key ++ ':' :: rest) :: after, ¬ blankValued l)
    (hkey : (key, field) ∈ recognizedFields)
    (hlast : ∀ l ∈ after, ¬ (key ++ [':']) <+: l) :
    ∃ doc, parseMarkdownFile env (pre ++ "---".toList ++ post) = .ok doc ∧
      field doc = rest.dropWhile isReSpace := by
  refine ⟨_, parseMarkdownFile_of_first env pre post hfirst, ?_⟩
  rw [recognizedFields_read env _ _ key field hkey, hlines,
    findAllMeta_lines _ hnl (fun l hl => not_blankValued_good l (hgood l hl))]
  obtain ⟨hk, hw⟩ := recognizedFields_key key field hkey
  rw [List.filterMap_append, List.filterMap_cons, metaOfLine_key_line key rest hk hw]
  have e : before.filterMap metaOfLine ++
      (key, rest.dropWhile isReSpace) :: after.filterMap metaOfLine =
      (before.filterMap metaOfLine ++ [(key, rest.dropWhile isReSpace)]) ++
        after.filterMap metaOfLine := by simp
  rw [e, metaDataMap_append_of_not_mem, metaDataMap_append_singleton, if_pos rfl]
  intro m hm hmk
  obtain ⟨l, hl, hml⟩ := List.mem_filterMap.mp hm
  obtain ⟨r, e, _, _, _⟩ := metaOfLine_some l m.1 m.2 hml
  apply hlast l hl
  rw [e, hmk]
  exact ⟨r, by simp⟩

/-- C2, amended, at a file with carriage returns, a repeated Title and a Slug
with trailing white space. -/
theorem metadata_field_of_last_line_witness :
    ∃ doc, parseMarkdownFile goEnv
        ("Title: Old\r\nSlug:  my-post \r\nTitle: New title\r\n".toList ++ "---".toList ++
          "\r\nbody".toList) = .ok doc ∧
      doc.Title = " New title".toList.dropWhile isReSpace :=
  metadata_field_of_last_line goEnv
    "Title: Old\r\nSlug:  my-post \r\nTitle: New title\r\n".toList
    "\r\nbody".toList ["Title: Old".toList, "Slug:  my-post ".toList] ["".toList]
    "Title".toList " New title".toList BlogPost.Title
    (by decide) (by decide) (by decide)
    (by
      intro l hl
      rw [blankValued_iff]
      revert l
      decide)
    (List.mem_cons_self _ _) (by decide)

/-- C2 as stated fails: the value of the line `Title: Hi ` is ` Hi `, which
trimmed is `Hi`, and the parsed Title is `Hi ` with the trailing space. -/
theorem title_keeps_trailing_space :
    (parseMarkdownFile goEnv "Title: Hi \n---\nbody".toList).toOption.map BlogPost.Title =
      some "Hi ".toList ∧
    trimSpace " Hi ".toList = "Hi".toList ∧ "Hi ".toList ≠ "Hi".toList := by
  decide

/-! ## The Order of a document -/

theorem matchMetaAt_key (s key val : Str) (n : Nat)
    (h : matchMetaAt s = some ((key, val), n)) : (key ++ [':']) <+: s := by
  have hsplit := List.takeWhile_append_dropWhile isWord s
  unfold matchMetaAt at h
  cases hd : s.dropWhile isWord with
  | nil => rw [hd] at h; cases h
  | cons x r =>
    rw [hd] at h
    by_cases hx : x = ':'
    · subst hx
      have hkey : key = s.takeWhile isWord := by
        simp only at h
        split_ifs at h
        split at h
        · simp only [Option.some.injEq, Prod.mk.injEq] at h
          exact h.1.1.symm
        · split at h
          · simp only [Option.some.injEq, Prod.mk.injEq] at h
            exact h.1.1.symm
          · cases h
      refine ⟨r, ?_⟩
      rw [hkey, List.append_assoc, List.singleton_append, ← hd, hsplit]
    · exfalso
      revert h
      split
      · rename_i r' heq
        simp only [List.cons.injEq] at heq
        exact absurd heq.1 hx
      · intro h; cases h

theorem findAllAux_meta_no_key (kw : Str) (T : Str) (k : Nat) (b : Bool)
    (hb : b = true → ¬ (kw ++ [':']) <+: T)
    (hin : ¬ ('\n' :: (kw ++ [':'])) <:+: T) :
    ∀ m ∈ findAllAux matchMetaAt k b T, m.1 ≠ kw := by
  induction T generalizing k b with
  | nil => intro m hm; cases k <;> simp [findAllAux] at hm
  | cons c cs ih =>
    have hin' : ¬ ('\n' :: (kw ++ [':'])) <:+: cs := fun h => hin (List.infix_cons h)
    have hflag : (c == '\n') = true → ¬ (kw ++ [':']) <+: cs := by
      intro hc hp
      rw [beq_iff_eq] at hc
      subst hc
      exact hin ((List.prefix_cons_inj _).mpr hp).isInfix
    cases k with
    | succ k =>
      simp only [findAllAux]
      exact ih k _ hflag hin'
    | zero =>
      cases b with
      | false =>
        simp only [findAllAux, Bool.false_eq_true, if_false]
        exact ih 0 _ hflag hin'
      | true =>
        simp only [findAllAux, if_true]
        cases hm : matchMetaAt (c :: cs) with
        | none => exact ih 0 _ hflag hin'
        | some res =>
          obtain ⟨⟨key, val⟩, n⟩ := res
          intro m hmem
          rcases List.mem_cons.mp hmem with rfl | hmem
          · intro hk
            simp only at hk
            subst hk
            exact hb rfl (matchMetaAt_key _ _ _ _ hm)
          · exact ih (n - 1) _ hflag hin' m hmem

theorem dropWhile_isSpace_dropWhile_isReSpace (l : Str) :
    (l.dropWhile isReSpace).dropWhile isSpace = l.dropWhile isSpace := by
  induction l with
  | nil => rfl
  | cons c cs ih =>
    by_cases hc : isReSpace c = true
    · have hs : isSpace c = true := by
        simp only [isReSpace, Bool.or_eq_true, beq_iff_eq] at hc
        simp only [isSpace, Bool.or_eq_true, Bool.and_eq_true, decide_eq_true_eq, beq_iff_eq]
        omega
      simp only [List.dropWhile, hc, hs]
      exact ih
    · have hc' : isReSpace c = false := by simpa using hc
      simp only [List.dropWhile, hc']

theorem trimSpace_dropWhile_isReSpace (l : Str) :
    trimSpace (l.dropWhile isReSpace) = trimSpace l := by
  unfold trimSpace
  rw [dropWhile_isSpace_dropWhile_isReSpace]

/-- On a block without a key of blank value, the string that `parseMetadata`
hands to `strconv.Atoi` is the rest of the last line beginning with `Order:`,
trimmed. -/
theorem orderValue_of_last_line (before after : List Str) (rest : Str)
    (hnl : ∀ l ∈ before ++ ("Order".toList ++ ':' :: rest) :: after, '\n' ∉ l)
    (hgood : ∀ l ∈ before ++ ("Order".toList ++ ':' :: rest) :: after, ¬ blankValued l)
    (hlast : ∀ l ∈ after, ¬ "Order:".toList <+: l) :
    orderValue (joinLines (before ++ ("Order".toList ++ ':' :: rest) :: after)) =
      trimSpace rest := by
  unfold orderValue
  rw [findAllMeta_lines _ hnl (fun l hl => not_blankValued_good l (hgood l hl)),
    List.filterMap_append, List.filterMap_cons,
    metaOfLine_key_line "Order".toList rest (by decide) (by decide)]
  have e : before.filterMap metaOfLine ++
      ("Order".toList, rest.dropWhile isReSpace) :: after.filterMap metaOfLine =
      (before.filterMap metaOfLine ++ [("Order".toList, rest.dropWhile isReSpace)]) ++
        after.filterMap metaOfLine := by simp
  rw [e, metaDataMap_append_of_not_mem, metaDataMap_append_singleton, if_pos rfl,
    trimSpace_dropWhile_isReSpace]
  intro m hm hmk
  obtain ⟨l, hl, hml⟩ := List.mem_filterMap.mp hm
  obtain ⟨r, e, _, _, _⟩ := metaOfLine_some l m.1 m.2 hml
  apply hlast l hl
  rw [e, hmk]
  exact ⟨r, by simp⟩

/-- C3, amended: the Order that `parseMetadata` returns is 9999 when no line of
the block begins with `Order:`.  On a block none of whose lines is a key with
a blank value, let `rest` be what follows the colon on the last line that
begins with `Order:`: the Order is 9999 when `rest` trimmed is no decimal
integer, it is `n` when `rest` trimmed is the decimal integer `n` and `n` fits
the 64-bit `int`, and 9999 when `n` does not fit.  A file parses to a document
with the Order of its metadata block, so a file without a line beginning with
`Order:` parses to a document of Order 9999. -/
theorem order_of_metadata (metadata : Str) :
    ((¬ "Order:".toList <+: metadata ∧ ¬ "\nOrder:".toList <:+: metadata) →
      (parseMetadata metadata).order = 9999) ∧
    (∀ (before after : List Str) (rest : Str),
      metadata = joinLines (before ++ ("Order".toList ++ ':' :: rest) :: after) →
      (∀ l ∈ before ++ ("Order".toList ++ ':' :: rest) :: after, '\n' ∉ l) →
      (∀ l ∈ before ++ ("Order".toList ++ ':' :: rest) :: after, ¬ blankValued l) →
      (∀ l ∈ after, ¬ "Order:".toList <+: l) →
      ((¬ ∃ n, DecimalInt (trimSpace rest) n) → (parseMetadata metadata).order = 9999) ∧
      (∀ n, DecimalInt (trimSpace rest) n → -(2 ^ 63 : Int) ≤ n → n < 2 ^ 63 →
        (parseMetadata metadata).order = n) ∧
      (∀ n, DecimalInt (trimSpace rest) n → (n < -(2 ^ 63 : Int) ∨ 2 ^ 63 ≤ n) →
        (parseMetadata metadata).order = 9999)) ∧
    (∀ (env : Env) (pre post : Str), ¬ "---".toList <:+: pre ++ "--".toList →
      replaceAll pre "\r".toList [] = metadata →
      ∃ doc, parseMarkdownFile env (pre ++ "---".toList ++ post) = .ok doc ∧
        doc.Order = (parseMetadata metadata).order ∧
        ((¬ "Order:".toList <+: metadata ∧ ¬ "\nOrder:".toList <:+: metadata) →
          doc.Order = 9999)) := by
  have first : (¬ "Order:".toList <+: metadata ∧ ¬ "\nOrder:".toList <:+: metadata) →
      (parseMetadata metadata).order = 9999 := by
    rintro ⟨h1, h2⟩
    have hno := findAllAux_meta_no_key "Order".toList metadata 0 true (fun _ => h1) h2
    have hv : orderValue metadata = [] := by
      unfold orderValue findAllMeta
      rw [metaDataMap_absent _ _ hno]
      rfl
    rw [parseMetadata_order, hv]
    rfl
  refine ⟨first, ?_, ?_⟩
  · intro before after rest hmeta hnl hgood hlast
    have hv : orderValue metadata = trimSpace rest := by
      rw [hmeta]
      exact orderValue_of_last_line before after rest hnl hgood hlast
    refine ⟨?_, ?_, ?_⟩
    · intro h
      rw [parseMetadata_order, hv]
      cases ha : atoi (trimSpace rest) with
      | none => rfl
      | some v => exact absurd (decimalInt_of_atoi _ v ha) h
    · intro n hn h1 h2
      rw [parseMetadata_order, hv, atoi_of_decimalInt _ n hn, if_pos ⟨h1, h2⟩]
      rfl
    · intro n hn h
      rw [parseMetadata_order, hv, atoi_of_decimalInt _ n hn, if_neg (by omega)]
      rfl
  · intro env pre post hfirst hmeta
    refine ⟨_, parseMarkdownFile_of_first env pre post hfirst, ?_, ?_⟩
    · show (parseMetadata (replaceAll pre "\r".toList [])).order = _
      rw [hmeta]
    · intro hno
      show (parseMetadata (replaceAll pre "\r".toList [])).order = 9999
      rw [hmeta]
      exact first hno

/-- C3, amended, at three blocks: a signed Order with trailing white space
after a Title line, an Order that is no number, and no Order line. -/
theorem order_of_metadata_witness :
    (parseMetadata "Title: a\nOrder: -12 \n".toList).order = -12 ∧
    (parseMetadata "Title: a\nOrder: soon\n".toList).order = 9999 ∧
    (parseMetadata "Title: a\nSlug: b".toList).order = 9999 :=
  ⟨((order_of_metadata "Title: a\nOrder: -12 \n".toList).2.1
        ["Title: a".toList] ["".toList] " -12 ".toList (by decide) (by decide)
        (by
          intro l hl
          rw [blankValued_iff]
          revert l
          decide)
        (by decide)).2.1 (-12)
      (by
        have e : trimSpace " -12 ".toList = '-' :: "12".toList := by decide
        rw [e]
        exact DecimalInt.minus _ 12
          (decimalNat_of_parseDigits "12".toList 12 (by decide) (by decide)))
      (by decide) (by decide),
    ((order_of_metadata "Title: a\nOrder: soon\n".toList).2.1
        ["Title: a".toList] ["".toList] " soon".toList (by decide) (by decide)
        (by
          intro l hl
          rw [blankValued_iff]
          revert l
          decide)
        (by decide)).1 (fun ⟨n, hn⟩ => by
      have e : trimSpace " soon".toList = ['s', 'o', 'o', 'n'] := by decide
      rw [e] at hn
      cases hn with
      | unsigned _ m hm =>
        have hp := hm.parseDigits
        have hq : parseDigits 0 ['s', 'o', 'o', 'n'] = none := by decide
        rw [hq] at hp
        cases hp),
    (order_of_metadata "Title: a\nSlug: b".toList).1 ⟨by decide, by decide⟩⟩

/-- C3 as stated fails: the block is the one line `Order: 9223372036854775808`,
whose value trimmed is the decimal integer 2^63, and the Order returned is
9999. -/
theorem order_out_of_range :
    "Order: 9223372036854775808".toList =
      joinLines ["Order".toList ++ ':' :: " 9223372036854775808".toList] ∧
    DecimalInt (trimSpace " 9223372036854775808".toList) 9223372036854775808 ∧
    (parseMetadata "Order: 9223372036854775808".toList).order = 9999 ∧
    (9999 : Int) ≠ 9223372036854775808 :=
  ⟨by decide,
    by
      have e : trimSpace " 9223372036854775808".toList = "9223372036854775808".toList := by
        decide
      rw [e]
      exact DecimalInt.unsigned _ 9223372036854775808
        (decimalNat_of_parseDigits _ _ (by decide) (by decide)),
    by decide, by decide⟩

/-! ## Section headings -/

/-- Every text is the text of its lines. -/
theorem exists_joinLines (T : Str) :
    ∃ ls : List Str, ls ≠ [] ∧ (∀ l ∈ ls, '\n' ∉ l) ∧ joinLines ls = T := by
  induction T with
  | nil => exact ⟨[[]], by simp, by simp, rfl⟩
  | cons c cs ih =>
    obtain ⟨ls, hne, hnl, hj⟩ := ih
    cases ls with
    | nil => exact absurd rfl hne
    | cons l rest =>
      by_cases hc : c = '\n'
      · subst hc
        refine ⟨[] :: l :: rest, by simp, ?_, ?_⟩
        · intro x hx
          rcases List.mem_cons.mp hx with rfl | hx
          · simp
          · exact hnl x hx
        · show [] ++ '\n' :: joinLines (l :: rest) = _
          rw [hj]
          rfl
      · refine ⟨(c :: l) :: rest, by simp, ?_, ?_⟩
        · intro x hx
          rcases List.mem_cons.mp hx with rfl | hx
          · intro h
            rcases List.mem_cons.mp h with h | h
            · exact hc h.symm
            · exact hnl l (List.mem_cons_self _ _) h
          · exact hnl x (List.mem_cons_of_mem _ hx)
        · cases rest with
          | nil =>
            simp only [joinLines] at hj ⊢
            rw [hj]
          | cons l2 rest2 =>
            have e1 : joinLines ((c :: l) :: l2 :: rest2) =
                c :: (l ++ '\n' :: joinLines (l2 :: rest2)) := rfl
            have e2 : joinLines (l :: l2 :: rest2) = l ++ '\n' :: joinLines (l2 :: rest2) := rfl
            rw [e1, ← e2, hj]

/-- On a body none of whose lines is `##` followed by nothing but white space,
`extractHeaders` returns the headings of the lines, in order: what follows
`##` and white space on the lines that begin so, nothing from the others. -/
theorem extractHeaders_lines (ls : List Str) (hnl : ∀ l ∈ ls, '\n' ∉ l)
    (hgood : ∀ l ∈ ls, ¬ ∃ r, l = '#' :: '#' :: r ∧ ∀ c ∈ r, isReSpace c = true) :
    extractHeaders (joinLines ls) = ls.filterMap headerOfLine :=
  findAllAux_lines matchHeaderAt headerOfLine ls hnl rfl
    (fun l hl tail htail => matchHeaderAt_line l tail (hnl l hl) (hgood l hl) htail)

/-- C7 on the code: in the body `##`, newline, `foo` no line begins with `##`
followed by white space on that line, so the headings read line by line are
none, and `extractHeaders` returns `foo`, taken from the second line: the
`\s+` of the pattern runs over the newline.  A file with that body parses to
a document with the heading `foo`.  The example of the claim comes out as
stated. -/
theorem extractHeaders_crosses_newline :
    extractHeaders "##\nfoo".toList = ["foo".toList] ∧
    joinLines ["##".toList, "foo".toList] = "##\nfoo".toList ∧
    ["##".toList, "foo".toList].filterMap headerOfLine = [] ∧
    (parseMarkdownFile goEnv "Title: x\n---\n##\nfoo".toList).toOption.map BlogPost.Headers =
      some ["foo".toList] ∧
    extractHeaders "## Intro\n### Sub\n#NoSpace".toList = ["Intro".toList] := by
  decide

end Blog
